import Mathlib

/-!
Shallow embedding of the layer-synchronization core of the `js_up`
repository, covering the schema-coercion engine
(`src/controllers/data/convert.py`), the export engine
(`src/controllers/data/export_data.py`), the import engine
(`src/controllers/repo/data_import.py`) and the inspection utilities
(`src/controllers/data/inspect_data.py`), together with theorems that
settle the specification claims about them.
-/

set_option autoImplicit false

namespace JsUp

/-! ## Data model

A `Container` (GeoPackage) holds named `Layer`s; a layer has an ordered
list of field definitions and an ordered list of features.  A feature is
an association list from field name to an optional integer attribute
value (`none` models a NULL / unset value; non-integer attribute types
play no role in the claims). -/

inductive FieldType
  | int32
  | int64
  | real
  | str
  | binary
  | date
deriving DecidableEq, Repr

structure FieldDefn where
  name : String
  ftype : FieldType
deriving DecidableEq, Repr

structure Feature where
  attrs : List (String × Option Int)
deriving DecidableEq, Repr

structure Layer where
  lname : String
  fields : List FieldDefn
  features : List Feature
deriving DecidableEq, Repr

structure Container where
  layers : List Layer
deriving DecidableEq, Repr

/-! ## Attribute-list primitives

These model the per-feature operations of the OGR API used by the code:
`GetField` reads the (first) binding of a field name, `SetField`
overwrites it in place, deleting a field removes its binding, and
altering a field's name renames its binding.  All of them act on the
first matching binding, as OGR resolves a field name to the first field
index with that name. -/

def getAttr : List (String × Option Int) → String → Option Int
  | [], _ => none
  | p :: rest, n => if p.1 = n then p.2 else getAttr rest n

def setAttr : List (String × Option Int) → String → Option Int → List (String × Option Int)
  | [], _, _ => []
  | p :: rest, n, v => if p.1 = n then (n, v) :: rest else p :: setAttr rest n v

def removeAttr : List (String × Option Int) → String → List (String × Option Int)
  | [], _ => []
  | p :: rest, n => if p.1 = n then rest else p :: removeAttr rest n

def renameAttr : List (String × Option Int) → String → String → List (String × Option Int)
  | [], _, _ => []
  | p :: rest, o, n => if p.1 = o then (n, p.2) :: rest else p :: renameAttr rest o n

def Feature.getField (ft : Feature) (n : String) : Option Int :=
  getAttr ft.attrs n

def Feature.setField (ft : Feature) (n : String) (v : Option Int) : Feature :=
  ⟨setAttr ft.attrs n v⟩

def Feature.keys (ft : Feature) : List String :=
  ft.attrs.map Prod.fst

/-- `replaceFirst xs o n` replaces the first occurrence of `o` in `xs` by `n`;
used to describe how a key list evolves under `renameAttr`. -/
def replaceFirst : List String → String → String → List String
  | [], _, _ => []
  | x :: rest, o, n => if x = o then n :: rest else x :: replaceFirst rest o n

/-! ### Lemmas about the attribute primitives -/

theorem getAttr_append_of_ne {a : List (String × Option Int)} {k f : String} {v : Option Int}
    (h : f ≠ k) : getAttr (a ++ [(k, v)]) f = getAttr a f := by
  have hk : ¬ k = f := fun hh => h hh.symm
  induction a with
  | nil => simp [getAttr, hk]
  | cons p rest ih =>
    by_cases hp : p.1 = f <;> simp [getAttr, hp, ih]

theorem getAttr_append_last {a : List (String × Option Int)} {k : String} {v : Option Int}
    (h : k ∉ a.map Prod.fst) : getAttr (a ++ [(k, v)]) k = v := by
  induction a with
  | nil => simp [getAttr]
  | cons p rest ih =>
    simp only [List.map_cons, List.mem_cons] at h
    push_neg at h
    have hp : ¬ p.1 = k := fun hh => h.1 hh.symm
    simp [getAttr, hp, ih h.2]

theorem getAttr_setAttr_of_ne {a : List (String × Option Int)} {k f : String} {v : Option Int}
    (h : f ≠ k) : getAttr (setAttr a k v) f = getAttr a f := by
  have hk : ¬ k = f := fun hh => h hh.symm
  induction a with
  | nil => simp [setAttr]
  | cons p rest ih =>
    obtain ⟨pk, pv⟩ := p
    by_cases hp : pk = k
    · subst hp
      simp [setAttr, getAttr, hk]
    · by_cases hf : pk = f
      · subst hf
        simp [setAttr, hp, getAttr]
      · simp [setAttr, hp, getAttr, hf, ih]

theorem getAttr_removeAttr_of_ne {a : List (String × Option Int)} {g f : String}
    (h : f ≠ g) : getAttr (removeAttr a g) f = getAttr a f := by
  have hg : ¬ g = f := fun hh => h hh.symm
  induction a with
  | nil => simp [removeAttr]
  | cons p rest ih =>
    obtain ⟨pk, pv⟩ := p
    by_cases hp : pk = g
    · subst hp
      simp [removeAttr, getAttr, hg]
    · by_cases hf : pk = f
      · subst hf
        simp [removeAttr, hp, getAttr]
      · simp [removeAttr, hp, getAttr, hf, ih]

theorem getAttr_renameAttr_of_ne {a : List (String × Option Int)} {o n f : String}
    (ho : f ≠ o) (hn : f ≠ n) : getAttr (renameAttr a o n) f = getAttr a f := by
  have ho' : ¬ o = f := fun hh => ho hh.symm
  have hn' : ¬ n = f := fun hh => hn hh.symm
  induction a with
  | nil => simp [renameAttr]
  | cons p rest ih =>
    obtain ⟨pk, pv⟩ := p
    by_cases hp : pk = o
    · subst hp
      simp [renameAttr, getAttr, hn', ho']
    · by_cases hf : pk = f
      · subst hf
        simp [renameAttr, hp, getAttr]
      · simp [renameAttr, hp, getAttr, hf, ih]

theorem getAttr_renameAttr_self {a : List (String × Option Int)} {o n : String}
    (hn : n ∉ a.map Prod.fst) : getAttr (renameAttr a o n) n = getAttr a o := by
  induction a with
  | nil => simp [renameAttr, getAttr]
  | cons p rest ih =>
    simp only [List.map_cons, List.mem_cons] at hn
    push_neg at hn
    by_cases hp : p.1 = o
    · simp [renameAttr, hp, getAttr]
    · have hpn : ¬ p.1 = n := fun hh => hn.1 hh.symm
      simp [renameAttr, hp, getAttr, hpn, ih hn.2]

theorem setAttr_append_last {a : List (String × Option Int)} {k : String} {w v : Option Int}
    (h : k ∉ a.map Prod.fst) : setAttr (a ++ [(k, w)]) k v = a ++ [(k, v)] := by
  induction a with
  | nil => simp [setAttr]
  | cons p rest ih =>
    simp only [List.map_cons, List.mem_cons] at h
    push_neg at h
    have hp : ¬ p.1 = k := fun hh => h.1 hh.symm
    simp [setAttr, hp, ih h.2]

theorem removeAttr_append_left {a b : List (String × Option Int)} {g : String}
    (h : g ∈ a.map Prod.fst) : removeAttr (a ++ b) g = removeAttr a g ++ b := by
  induction a with
  | nil => simp at h
  | cons p rest ih =>
    simp only [List.map_cons, List.mem_cons] at h
    by_cases hp : p.1 = g
    · simp [removeAttr, hp]
    · have : g ∈ rest.map Prod.fst := by
        rcases h with h | h
        · exact absurd h.symm hp
        · exact h
      simp [removeAttr, hp, ih this]

theorem keys_setAttr (a : List (String × Option Int)) (k : String) (v : Option Int) :
    (setAttr a k v).map Prod.fst = a.map Prod.fst := by
  induction a with
  | nil => simp [setAttr]
  | cons p rest ih =>
    by_cases hp : p.1 = k <;> simp [setAttr, hp, ih]

theorem keys_removeAttr (a : List (String × Option Int)) (g : String) :
    (removeAttr a g).map Prod.fst = (a.map Prod.fst).erase g := by
  induction a with
  | nil => simp [removeAttr]
  | cons p rest ih =>
    by_cases hp : p.1 = g
    · simp [removeAttr, hp, List.erase_cons_head]
    · simp [removeAttr, hp, List.erase_cons_tail, ih]

theorem keys_renameAttr (a : List (String × Option Int)) (o n : String) :
    (renameAttr a o n).map Prod.fst = replaceFirst (a.map Prod.fst) o n := by
  induction a with
  | nil => simp [renameAttr, replaceFirst]
  | cons p rest ih =>
    by_cases hp : p.1 = o <;> simp [renameAttr, hp, replaceFirst, ih]

theorem replaceFirst_append_not_mem {xs : List String} {o n : String}
    (h : o ∉ xs) : replaceFirst (xs ++ [o]) o n = xs ++ [n] := by
  induction xs with
  | nil => simp [replaceFirst]
  | cons x rest ih =>
    simp only [List.mem_cons] at h
    push_neg at h
    have hx : ¬ x = o := fun hh => h.1 hh.symm
    simp [replaceFirst, hx, ih h.2]

/-! ## Field-definition list primitives

`DeleteField` removes the field with the given name (OGR resolves the
name to the first matching index), `AlterFieldDefn` with
`ALTER_NAME_FLAG` renames it in place, and `CreateField` appends a new
field definition at the end of the schema. -/

def deleteDefn : List FieldDefn → String → List FieldDefn
  | [], _ => []
  | d :: rest, f => if d.name = f then rest else d :: deleteDefn rest f

def renameDefn : List FieldDefn → String → String → List FieldDefn
  | [], _, _ => []
  | d :: rest, o, n => if d.name = o then ⟨n, d.ftype⟩ :: rest else d :: renameDefn rest o n

def fieldNames (l : Layer) : List String :=
  l.fields.map FieldDefn.name

theorem names_deleteDefn (ds : List FieldDefn) (f : String) :
    (deleteDefn ds f).map FieldDefn.name = (ds.map FieldDefn.name).erase f := by
  induction ds with
  | nil => simp [deleteDefn]
  | cons d rest ih =>
    by_cases hd : d.name = f
    · simp [deleteDefn, hd, List.erase_cons_head]
    · simp [deleteDefn, hd, List.erase_cons_tail, ih]

theorem mem_of_mem_deleteDefn {ds : List FieldDefn} {f : String} {d : FieldDefn}
    (h : d ∈ deleteDefn ds f) : d ∈ ds := by
  induction ds with
  | nil => simp [deleteDefn] at h
  | cons e rest ih =>
    by_cases he : e.name = f
    · simp only [deleteDefn, he, if_pos] at h
      exact List.mem_cons_of_mem _ h
    · simp only [deleteDefn, he, if_neg, not_false_iff, List.mem_cons] at h
      rcases h with h | h
      · exact h ▸ List.mem_cons_self _ _
      · exact List.mem_cons_of_mem _ (ih h)

theorem mem_deleteDefn_of_ne {ds : List FieldDefn} {f : String} {d : FieldDefn}
    (hd : d ∈ ds) (hne : d.name ≠ f) : d ∈ deleteDefn ds f := by
  induction ds with
  | nil => simp at hd
  | cons e rest ih =>
    rcases List.mem_cons.mp hd with h | h
    · subst h
      simp [deleteDefn, hne]
    · by_cases he : e.name = f
      · simp [deleteDefn, he, h]
      · simp only [deleteDefn, he, if_neg, not_false_iff, List.mem_cons]
        exact Or.inr (ih h)

theorem name_ne_of_mem_deleteDefn {ds : List FieldDefn} {f : String} {d : FieldDefn}
    (hnd : (ds.map FieldDefn.name).Nodup) (h : d ∈ deleteDefn ds f) : d.name ≠ f ∨ f ∉ ds.map FieldDefn.name := by
  induction ds with
  | nil => simp [deleteDefn] at h
  | cons e rest ih =>
    simp only [List.map_cons, List.nodup_cons] at hnd
    by_cases he : e.name = f
    · simp only [deleteDefn, he, if_pos] at h
      left
      intro hdf
      exact hnd.1 (he ▸ hdf ▸ List.mem_map_of_mem FieldDefn.name h)
    · simp only [deleteDefn, he, if_neg, not_false_iff, List.mem_cons] at h
      rcases h with h | h
      · subst h
        exact Or.inl he
      · rcases ih hnd.2 h with hc | hc
        · exact Or.inl hc
        · right
          simp only [List.map_cons, List.mem_cons]
          push_neg
          refine ⟨fun hh => he hh.symm, hc⟩

theorem deleteDefn_append_left {ds es : List FieldDefn} {f : String}
    (h : f ∈ ds.map FieldDefn.name) : deleteDefn (ds ++ es) f = deleteDefn ds f ++ es := by
  induction ds with
  | nil => simp at h
  | cons d rest ih =>
    simp only [List.map_cons, List.mem_cons] at h
    by_cases hd : d.name = f
    · simp [deleteDefn, hd]
    · have : f ∈ rest.map FieldDefn.name := by
        rcases h with h | h
        · exact absurd h.symm hd
        · exact h
      simp [deleteDefn, hd, ih this]

theorem renameDefn_append_last {ds : List FieldDefn} {o n : String} {t : FieldType}
    (h : o ∉ ds.map FieldDefn.name) : renameDefn (ds ++ [⟨o, t⟩]) o n = ds ++ [⟨n, t⟩] := by
  induction ds with
  | nil => simp [renameDefn]
  | cons d rest ih =>
    simp only [List.map_cons, List.mem_cons] at h
    push_neg at h
    have hd : ¬ d.name = o := fun hh => h.1 hh.symm
    simp [renameDefn, hd, ih h.2]

/-! ## Schema Coercion Engine (`int64_to_int32`, src/controllers/data/convert.py)

The function opens the GeoPackage (an unopenable file is modelled as
`none`), and for each layer collects the names of the `Int64` fields
(`toConvert`) and the names of all fields (`fieldNames`, the code's
`existing_fields`, computed once per layer before any conversion).  For
each `Int64` field `f` it then either skips (when `f ++ "_int32"` is
already in `existing_fields`) or: creates an `Int32` field `f_int32`,
copies each feature's value of `f` into `f_int32` when it fits the
32-bit range (leaving `NULL` values and out-of-range values unwritten,
the latter with a printed warning), deletes field `f` and renames
`f_int32` back to `f`.

`Event` records the observable actions of a run: schema mutations,
overflow warnings, skips, and the open failure.  The transaction
constructors `beginTx`/`commitTx`/`rollbackTx` exist so that the
transaction-discipline property can be stated; the code never emits
them. -/

def int32Min : Int := -2147483648

def int32Max : Int := 2147483647

/-- The per-feature copy step of the conversion loop: read the old
field's value; `NULL` is left alone; an in-range value is written into
the new field; an out-of-range value is dropped. -/
def copyField (ft : Feature) (oldName newName : String) : Feature :=
  match ft.getField oldName with
  | none => ft
  | some v => if int32Min ≤ v ∧ v ≤ int32Max then ft.setField newName (some v) else ft

/-- Conversion of one `Int64` field `fname` of a layer: create the
`_int32` work field, copy every feature's value, delete the original
field, rename the work field back to `fname`. -/
def convertField (l : Layer) (fname : String) : Layer :=
  let newName := fname ++ "_int32"
  let l1 : Layer := { l with
    fields := l.fields ++ [⟨newName, FieldType.int32⟩],
    features := l.features.map (fun ft => ⟨ft.attrs ++ [(newName, none)]⟩) }
  let l2 : Layer := { l1 with
    features := l1.features.map (fun ft => copyField ft fname newName) }
  let l3 : Layer := { l2 with
    fields := deleteDefn l2.fields fname,
    features := l2.features.map (fun ft => ⟨removeAttr ft.attrs fname⟩) }
  { l3 with
    fields := renameDefn l3.fields newName fname,
    features := l3.features.map (fun ft => ⟨renameAttr ft.attrs newName fname⟩) }

/-- The names of the `Int64` fields of a layer, in schema order (the
code's `fields_to_convert`). -/
def toConvert (l : Layer) : List String :=
  (l.fields.filter (fun d => d.ftype == FieldType.int64)).map FieldDefn.name

/-- One iteration of the conversion loop: skip if the work-field name is
already among the layer's pre-pass field names `existing`, otherwise
convert. -/
def coerceStep (existing : List String) (acc : Layer) (fname : String) : Layer :=
  if (fname ++ "_int32") ∈ existing then acc else convertField acc fname

/-- The whole per-layer pass of `int64_to_int32`. -/
def coerceLayer (l : Layer) : Layer :=
  (toConvert l).foldl (coerceStep (fieldNames l)) l

/-- The per-layer coercion applied to every layer of an opened
container; `none` models a GeoPackage that could not be opened, in which
case the function only prints a message and returns. -/
def int64_to_int32 : Option Container → Option Container
  | none => none
  | some c => some ⟨c.layers.map coerceLayer⟩

/-- Observable actions of a coercion run.  The transaction events exist
only to state the transaction-discipline claim; nothing in the code
emits them. -/
inductive Event
  | openFailed
  | createField (layer fieldName : String)
  | overflowWarning (fieldName : String) (value : Int)
  | deleteField (layer fieldName : String)
  | renameField (layer oldName newName : String)
  | skipExisting (layer fieldName : String)
  | beginTx
  | commitTx
  | rollbackTx
deriving DecidableEq, Repr

/-- The events printed/performed while converting one field: the field
creation, one overflow warning per feature whose current value exceeds
the `Int32` range, the deletion of the original field and the rename of
the work field. -/
def convertFieldEvents (l : Layer) (fname : String) : List Event :=
  [Event.createField l.lname (fname ++ "_int32")]
    ++ (l.features.filterMap (fun ft =>
        match ft.getField fname with
        | none => none
        | some v =>
          if int32Min ≤ v ∧ v ≤ int32Max then none
          else some (Event.overflowWarning fname v)))
    ++ [Event.deleteField l.lname fname,
        Event.renameField l.lname (fname ++ "_int32") fname]

/-- One traced iteration of the conversion loop. -/
def coerceStepT (existing : List String) (acc : Layer × List Event) (fname : String) :
    Layer × List Event :=
  if (fname ++ "_int32") ∈ existing then
    (acc.1, acc.2 ++ [Event.skipExisting acc.1.lname (fname ++ "_int32")])
  else
    (convertField acc.1 fname, acc.2 ++ convertFieldEvents acc.1 fname)

/-- Traced variant of the per-layer pass: the state evolves exactly as
in `coerceLayer` while the event log accumulates. -/
def coerceLayerT (l : Layer) : Layer × List Event :=
  (toConvert l).foldl (coerceStepT (fieldNames l)) (l, [])

/-- Traced variant of the whole pass over a container. -/
def int64_to_int32T : Option Container → Option Container × List Event
  | none => (none, [Event.openFailed])
  | some c =>
    let r := c.layers.foldl
      (fun acc l =>
        let cl := coerceLayerT l
        (acc.1 ++ [cl.1], acc.2 ++ cl.2))
      (([] : List Layer), ([] : List Event))
    (some ⟨r.1⟩, r.2)

/-! ### Schema-level lemmas about the coercion fold -/

theorem convertField_fields {l : Layer} {fname : String}
    (hf : fname ∈ fieldNames l) (hn : (fname ++ "_int32") ∉ fieldNames l) :
    (convertField l fname).fields = deleteDefn l.fields fname ++ [⟨fname, FieldType.int32⟩] := by
  show renameDefn (deleteDefn (l.fields ++ [⟨fname ++ "_int32", FieldType.int32⟩]) fname)
      (fname ++ "_int32") fname = _
  rw [deleteDefn_append_left hf]
  have hnd : (fname ++ "_int32") ∉ (deleteDefn l.fields fname).map FieldDefn.name := by
    rw [names_deleteDefn]
    intro hmem
    exact hn (List.mem_of_mem_erase hmem)
  exact renameDefn_append_last hnd

theorem fieldNames_convertField {l : Layer} {fname : String}
    (hf : fname ∈ fieldNames l) (hn : (fname ++ "_int32") ∉ fieldNames l) :
    fieldNames (convertField l fname) = (fieldNames l).erase fname ++ [fname] := by
  show (convertField l fname).fields.map FieldDefn.name = _
  rw [convertField_fields hf hn, List.map_append, names_deleteDefn]
  rfl

theorem fieldNames_convertField_perm {l : Layer} {fname : String}
    (hf : fname ∈ fieldNames l) (hn : (fname ++ "_int32") ∉ fieldNames l) :
    List.Perm (fieldNames (convertField l fname)) (fieldNames l) := by
  rw [fieldNames_convertField hf hn]
  exact ((List.perm_append_singleton _ _).trans (List.perm_cons_erase hf).symm)

theorem mem_toConvert {l : Layer} {g : String} :
    g ∈ toConvert l ↔ ∃ d ∈ l.fields, d.ftype = FieldType.int64 ∧ d.name = g := by
  simp only [toConvert, List.mem_map, List.mem_filter, beq_iff_eq]
  constructor
  · rintro ⟨d, ⟨hd, ht⟩, hn⟩
    exact ⟨d, hd, ht, hn⟩
  · rintro ⟨d, hd, ht, hn⟩
    exact ⟨d, ⟨hd, ht⟩, hn⟩

theorem toConvert_subset {l : Layer} {g : String} (h : g ∈ toConvert l) :
    g ∈ fieldNames l := by
  rcases mem_toConvert.mp h with ⟨d, hd, _, hn⟩
  exact hn ▸ List.mem_map_of_mem FieldDefn.name hd

theorem toConvert_nodup {l : Layer} (h : (fieldNames l).Nodup) : (toConvert l).Nodup :=
  h.sublist (List.Sublist.map FieldDefn.name (List.filter_sublist l.fields))

/-- Main schema invariant of the conversion loop: the field-name list
stays a permutation of the pre-pass names, and at the end every field
still of type `Int64` is one whose work-field name was already present
before the pass. -/
theorem coerce_fold_main {E : List String} (hE : E.Nodup) :
    ∀ (ts : List String) (acc : Layer), (∀ g ∈ ts, g ∈ E) → List.Perm (fieldNames acc) E →
    (∀ d ∈ acc.fields, d.ftype = FieldType.int64 → d.name ∈ ts ∨ (d.name ++ "_int32") ∈ E) →
    List.Perm (fieldNames (ts.foldl (coerceStep E) acc)) E ∧
    (∀ d ∈ (ts.foldl (coerceStep E) acc).fields, d.ftype = FieldType.int64 →
      (d.name ++ "_int32") ∈ E) := by
  intro ts
  induction ts with
  | nil =>
    intro acc _ hperm hint
    refine ⟨hperm, fun d hd ht => ?_⟩
    rcases hint d hd ht with h | h
    · simp at h
    · exact h
  | cons g ts ih =>
    intro acc hts hperm hint
    by_cases hskip : (g ++ "_int32") ∈ E
    · have hstep : coerceStep E acc g = acc := by simp [coerceStep, hskip]
      simp only [List.foldl_cons, hstep]
      refine ih acc (fun x hx => hts x (List.mem_cons_of_mem _ hx)) hperm ?_
      intro d hd ht
      rcases hint d hd ht with h | h
      · rcases List.mem_cons.mp h with h | h
        · exact Or.inr (h ▸ hskip)
        · exact Or.inl h
      · exact Or.inr h
    · have hg : g ∈ E := hts g (List.mem_cons_self _ _)
      have hgacc : g ∈ fieldNames acc := hperm.mem_iff.mpr hg
      have hn32 : (g ++ "_int32") ∉ fieldNames acc := fun hmem => hskip (hperm.mem_iff.mp hmem)
      have hstep : coerceStep E acc g = convertField acc g := by simp [coerceStep, hskip]
      have hperm' : List.Perm (fieldNames (convertField acc g)) E :=
        (fieldNames_convertField_perm hgacc hn32).trans hperm
      have hnodacc : (fieldNames acc).Nodup := (hperm.nodup_iff).mpr hE
      simp only [List.foldl_cons, hstep]
      refine ih (convertField acc g) (fun x hx => hts x (List.mem_cons_of_mem _ hx)) hperm' ?_
      intro d hd ht
      rw [convertField_fields hgacc hn32] at hd
      rcases List.mem_append.mp hd with hd | hd
      · have hdacc : d ∈ acc.fields := mem_of_mem_deleteDefn hd
        have hne : d.name ≠ g := by
          rcases name_ne_of_mem_deleteDefn hnodacc hd with h | h
          · exact h
          · exact absurd hgacc h
        rcases hint d hdacc ht with h | h
        · rcases List.mem_cons.mp h with h | h
          · exact absurd h hne
          · exact Or.inl h
        · exact Or.inr h
      · simp only [List.mem_singleton] at hd
        rw [hd] at ht
        simp at ht

/-- A field whose name is never converted in the remaining loop
survives the loop untouched. -/
theorem coerce_fold_preserve {E : List String} :
    ∀ (ts : List String) (acc : Layer) (d : FieldDefn), d ∈ acc.fields → d.name ∉ ts →
    List.Perm (fieldNames acc) E → (∀ g ∈ ts, g ∈ E) →
    d ∈ (ts.foldl (coerceStep E) acc).fields := by
  intro ts
  induction ts with
  | nil => intro acc d hd _ _ _; exact hd
  | cons g ts ih =>
    intro acc d hd hdn hperm hts
    simp only [List.mem_cons] at hdn
    push_neg at hdn
    by_cases hskip : (g ++ "_int32") ∈ E
    · have hstep : coerceStep E acc g = acc := by simp [coerceStep, hskip]
      simp only [List.foldl_cons, hstep]
      exact ih acc d hd hdn.2 hperm (fun x hx => hts x (List.mem_cons_of_mem _ hx))
    · have hg : g ∈ E := hts g (List.mem_cons_self _ _)
      have hgacc : g ∈ fieldNames acc := hperm.mem_iff.mpr hg
      have hn32 : (g ++ "_int32") ∉ fieldNames acc := fun hmem => hskip (hperm.mem_iff.mp hmem)
      have hstep : coerceStep E acc g = convertField acc g := by simp [coerceStep, hskip]
      have hperm' : List.Perm (fieldNames (convertField acc g)) E :=
        (fieldNames_convertField_perm hgacc hn32).trans hperm
      simp only [List.foldl_cons, hstep]
      refine ih (convertField acc g) d ?_ hdn.2 hperm'
        (fun x hx => hts x (List.mem_cons_of_mem _ hx))
      rw [convertField_fields hgacc hn32]
      exact List.mem_append.mpr (Or.inl (mem_deleteDefn_of_ne hd hdn.1))

/-- A field that the loop does convert ends up as an `Int32` field of
the original name. -/
theorem coerce_fold_converted {E : List String} :
    ∀ (ts : List String) (acc : Layer) (f : String), ts.Nodup → f ∈ ts →
    (f ++ "_int32") ∉ E → List.Perm (fieldNames acc) E → (∀ g ∈ ts, g ∈ E) →
    (⟨f, FieldType.int32⟩ : FieldDefn) ∈ (ts.foldl (coerceStep E) acc).fields := by
  intro ts
  induction ts with
  | nil => intro acc f _ hf; simp at hf
  | cons g ts ih =>
    intro acc f hnod hf hf32 hperm hts
    by_cases hfg : f = g
    · subst hfg
      have hstep : coerceStep E acc f = convertField acc f := by simp [coerceStep, hf32]
      have hfacc : f ∈ fieldNames acc := hperm.mem_iff.mpr (hts f (List.mem_cons_self _ _))
      have hn32 : (f ++ "_int32") ∉ fieldNames acc := fun hmem => hf32 (hperm.mem_iff.mp hmem)
      have hperm' : List.Perm (fieldNames (convertField acc f)) E :=
        (fieldNames_convertField_perm hfacc hn32).trans hperm
      simp only [List.foldl_cons, hstep]
      refine coerce_fold_preserve ts (convertField acc f) _ ?_ ?_ hperm'
        (fun x hx => hts x (List.mem_cons_of_mem _ hx))
      · rw [convertField_fields hfacc hn32]
        exact List.mem_append.mpr (Or.inr (List.mem_singleton.mpr rfl))
      · exact (List.nodup_cons.mp hnod).1
    · have hf' : f ∈ ts := by
        rcases List.mem_cons.mp hf with h | h
        · exact absurd h hfg
        · exact h
      by_cases hskip : (g ++ "_int32") ∈ E
      · have hstep : coerceStep E acc g = acc := by simp [coerceStep, hskip]
        simp only [List.foldl_cons, hstep]
        exact ih acc f (List.nodup_cons.mp hnod).2 hf' hf32 hperm
          (fun x hx => hts x (List.mem_cons_of_mem _ hx))
      · have hg : g ∈ E := hts g (List.mem_cons_self _ _)
        have hgacc : g ∈ fieldNames acc := hperm.mem_iff.mpr hg
        have hn32 : (g ++ "_int32") ∉ fieldNames acc := fun hmem => hskip (hperm.mem_iff.mp hmem)
        have hstep : coerceStep E acc g = convertField acc g := by simp [coerceStep, hskip]
        have hperm' : List.Perm (fieldNames (convertField acc g)) E :=
          (fieldNames_convertField_perm hgacc hn32).trans hperm
        simp only [List.foldl_cons, hstep]
        exact ih (convertField acc g) f (List.nodup_cons.mp hnod).2 hf' hf32 hperm'
          (fun x hx => hts x (List.mem_cons_of_mem _ hx))

/-- If every remaining field name would be skipped, the loop is the
identity. -/
theorem coerce_fold_all_skip {E : List String} :
    ∀ (ts : List String) (acc : Layer), (∀ g ∈ ts, (g ++ "_int32") ∈ E) →
    ts.foldl (coerceStep E) acc = acc := by
  intro ts
  induction ts with
  | nil => intro acc _; rfl
  | cons g ts ih =>
    intro acc h
    have hstep : coerceStep E acc g = acc := by
      simp [coerceStep, h g (List.mem_cons_self _ _)]
    simp only [List.foldl_cons, hstep]
    exact ih acc (fun x hx => h x (List.mem_cons_of_mem _ hx))

theorem coerceLayer_names_perm {l : Layer} (h : (fieldNames l).Nodup) :
    List.Perm (fieldNames (coerceLayer l)) (fieldNames l) :=
  (coerce_fold_main h (toConvert l) l (fun _ hg => toConvert_subset hg) (List.Perm.refl _)
    (fun d hd ht => Or.inl (mem_toConvert.mpr ⟨d, hd, ht, rfl⟩))).1

theorem coerceLayer_int64_char {l : Layer} (h : (fieldNames l).Nodup) :
    ∀ d ∈ (coerceLayer l).fields, d.ftype = FieldType.int64 →
      (d.name ++ "_int32") ∈ fieldNames l :=
  (coerce_fold_main h (toConvert l) l (fun _ hg => toConvert_subset hg) (List.Perm.refl _)
    (fun d hd ht => Or.inl (mem_toConvert.mpr ⟨d, hd, ht, rfl⟩))).2

theorem coerceLayer_converted {l : Layer} (h : (fieldNames l).Nodup) :
    ∀ d ∈ l.fields, d.ftype = FieldType.int64 → (d.name ++ "_int32") ∉ fieldNames l →
      (⟨d.name, FieldType.int32⟩ : FieldDefn) ∈ (coerceLayer l).fields := by
  intro d hd ht hn
  exact coerce_fold_converted (toConvert l) l d.name (toConvert_nodup h)
    (mem_toConvert.mpr ⟨d, hd, ht, rfl⟩) hn (List.Perm.refl _)
    (fun _ hg => toConvert_subset hg)

/-- A field whose derived work name was already present before the pass
survives the conversion loop untouched: the loop skips that field's own
name, and every converted step deletes and renames only differently
named fields. -/
theorem coerce_fold_skip_preserve {E : List String} :
    ∀ (ts : List String) (acc : Layer) (d : FieldDefn), d ∈ acc.fields →
    (d.name ++ "_int32") ∈ E →
    List.Perm (fieldNames acc) E → (∀ g ∈ ts, g ∈ E) →
    d ∈ (ts.foldl (coerceStep E) acc).fields := by
  intro ts
  induction ts with
  | nil => intro acc d hd _ _ _; exact hd
  | cons g ts ih =>
    intro acc d hd hdw hperm hts
    by_cases hskip : (g ++ "_int32") ∈ E
    · have hstep : coerceStep E acc g = acc := by simp [coerceStep, hskip]
      simp only [List.foldl_cons, hstep]
      exact ih acc d hd hdw hperm (fun x hx => hts x (List.mem_cons_of_mem _ hx))
    · have hg : g ∈ E := hts g (List.mem_cons_self _ _)
      have hgacc : g ∈ fieldNames acc := hperm.mem_iff.mpr hg
      have hn32 : (g ++ "_int32") ∉ fieldNames acc := fun hmem => hskip (hperm.mem_iff.mp hmem)
      have hstep : coerceStep E acc g = convertField acc g := by simp [coerceStep, hskip]
      have hperm' : List.Perm (fieldNames (convertField acc g)) E :=
        (fieldNames_convertField_perm hgacc hn32).trans hperm
      have hne : d.name ≠ g := fun hh => hskip (hh ▸ hdw)
      simp only [List.foldl_cons, hstep]
      refine ih (convertField acc g) d ?_ hdw hperm'
        (fun x hx => hts x (List.mem_cons_of_mem _ hx))
      rw [convertField_fields hgacc hn32]
      exact List.mem_append.mpr (Or.inl (mem_deleteDefn_of_ne hd hne))

theorem coerceLayer_skipped_survive {l : Layer} :
    ∀ d ∈ l.fields, (d.name ++ "_int32") ∈ fieldNames l →
      d ∈ (coerceLayer l).fields := fun d hd hw =>
  coerce_fold_skip_preserve (toConvert l) l d hd hw (List.Perm.refl _)
    (fun _ hg => toConvert_subset hg)

theorem coerceLayer_idem {l : Layer} (h : (fieldNames l).Nodup) :
    coerceLayer (coerceLayer l) = coerceLayer l := by
  show (toConvert (coerceLayer l)).foldl (coerceStep (fieldNames (coerceLayer l)))
      (coerceLayer l) = coerceLayer l
  refine coerce_fold_all_skip _ _ ?_
  intro g hg
  rcases mem_toConvert.mp hg with ⟨d, hd, ht, hn⟩
  have h32 : (g ++ "_int32") ∈ fieldNames l := hn ▸ coerceLayer_int64_char h d hd ht
  exact (coerceLayer_names_perm h).mem_iff.mpr h32

/-! ### Feature-level lemmas about the coercion fold

The feature list of a layer evolves under `convertField` by a map over
the features; `featConv` is that per-feature transformation, and
`featStep` its guarded variant matching `coerceStep`. -/

/-- The per-feature transformation performed by `convertField _ fname`. -/
def featConv (fname : String) (ft : Feature) : Feature :=
  let newName := fname ++ "_int32"
  let ft1 : Feature := ⟨ft.attrs ++ [(newName, none)]⟩
  let ft2 := copyField ft1 fname newName
  let ft3 : Feature := ⟨removeAttr ft2.attrs fname⟩
  ⟨renameAttr ft3.attrs newName fname⟩

/-- Guarded per-feature step matching `coerceStep`. -/
def featStep (existing : List String) (ft : Feature) (fname : String) : Feature :=
  if (fname ++ "_int32") ∈ existing then ft else featConv fname ft

/-- The value the coercion loop leaves in the coerced field, given the
original value: `NULL` stays `NULL`, in-range values are copied, and
out-of-range values are absent. -/
def coerceVal : Option Int → Option Int
  | none => none
  | some v => if int32Min ≤ v ∧ v ≤ int32Max then some v else none

theorem convertField_features (l : Layer) (fname : String) :
    (convertField l fname).features = l.features.map (featConv fname) := by
  simp only [convertField, List.map_map]
  rfl

theorem coerce_fold_features {E : List String} :
    ∀ (ts : List String) (acc : Layer),
    (ts.foldl (coerceStep E) acc).features =
      acc.features.map (fun ft => ts.foldl (featStep E) ft) := by
  intro ts
  induction ts with
  | nil => intro acc; simp
  | cons g ts ih =>
    intro acc
    by_cases hskip : (g ++ "_int32") ∈ E
    · have hstep : coerceStep E acc g = acc := by simp [coerceStep, hskip]
      simp only [List.foldl_cons, hstep, ih acc]
      refine List.map_congr_left fun ft _ => ?_
      simp [featStep, hskip]
    · have hstep : coerceStep E acc g = convertField acc g := by simp [coerceStep, hskip]
      simp only [List.foldl_cons, hstep, ih (convertField acc g), convertField_features,
        List.map_map]
      refine List.map_congr_left fun ft _ => ?_
      simp [Function.comp, featStep, hskip]

theorem coerceLayer_features (l : Layer) :
    (coerceLayer l).features =
      l.features.map (fun ft => (toConvert l).foldl (featStep (fieldNames l)) ft) :=
  coerce_fold_features (toConvert l) l

theorem keys_copyField (ft : Feature) (o n : String) :
    (copyField ft o n).keys = ft.keys := by
  unfold copyField
  cases ft.getField o with
  | none => rfl
  | some v =>
    by_cases hr : int32Min ≤ v ∧ v ≤ int32Max
    · simp [hr, Feature.setField, Feature.keys, keys_setAttr]
    · simp [hr]

theorem keys_featConv {ft : Feature} {g : String}
    (hg : g ∈ ft.keys) (h32 : (g ++ "_int32") ∉ ft.keys) :
    (featConv g ft).keys = ft.keys.erase g ++ [g] := by
  have h1 : (Feature.mk (ft.attrs ++ [(g ++ "_int32", none)])).keys
      = ft.keys ++ [g ++ "_int32"] := by
    simp [Feature.keys]
  have h2 : (copyField ⟨ft.attrs ++ [(g ++ "_int32", none)]⟩ g (g ++ "_int32")).keys
      = ft.keys ++ [g ++ "_int32"] := by
    rw [keys_copyField]; exact h1
  show (Feature.mk (renameAttr (removeAttr (copyField ⟨ft.attrs ++ [(g ++ "_int32", none)]⟩ g
      (g ++ "_int32")).attrs g) (g ++ "_int32") g)).keys = _
  have h3 : (removeAttr (copyField ⟨ft.attrs ++ [(g ++ "_int32", none)]⟩ g
      (g ++ "_int32")).attrs g).map Prod.fst = ft.keys.erase g ++ [g ++ "_int32"] := by
    rw [keys_removeAttr]
    show ((copyField ⟨ft.attrs ++ [(g ++ "_int32", none)]⟩ g (g ++ "_int32")).keys).erase g = _
    rw [h2, List.erase_append_left _ hg]
  show (renameAttr (removeAttr (copyField ⟨ft.attrs ++ [(g ++ "_int32", none)]⟩ g
      (g ++ "_int32")).attrs g) (g ++ "_int32") g).map Prod.fst = _
  rw [keys_renameAttr, h3]
  refine replaceFirst_append_not_mem ?_
  intro hmem
  exact h32 (List.mem_of_mem_erase hmem)

theorem keys_featConv_perm {ft : Feature} {g : String}
    (hg : g ∈ ft.keys) (h32 : (g ++ "_int32") ∉ ft.keys) :
    List.Perm (featConv g ft).keys ft.keys := by
  rw [keys_featConv hg h32]
  exact (List.perm_append_singleton _ _).trans (List.perm_cons_erase hg).symm

theorem featConv_getField_ne {ft : Feature} {g f : String}
    (hg : f ≠ g) (h32 : f ≠ g ++ "_int32") :
    (featConv g ft).getField f = ft.getField f := by
  show getAttr (renameAttr (removeAttr (copyField ⟨ft.attrs ++ [(g ++ "_int32", none)]⟩ g
      (g ++ "_int32")).attrs g) (g ++ "_int32") g) f = getAttr ft.attrs f
  rw [getAttr_renameAttr_of_ne h32 hg, getAttr_removeAttr_of_ne hg]
  have hcopy : getAttr (copyField ⟨ft.attrs ++ [(g ++ "_int32", none)]⟩ g
      (g ++ "_int32")).attrs f = getAttr (ft.attrs ++ [(g ++ "_int32", none)]) f := by
    unfold copyField
    cases (Feature.mk (ft.attrs ++ [(g ++ "_int32", none)])).getField g with
    | none => rfl
    | some v =>
      by_cases hr : int32Min ≤ v ∧ v ≤ int32Max
      · simp only [hr, if_pos]
        exact getAttr_setAttr_of_ne h32
      · simp [hr]
  rw [hcopy]
  exact getAttr_append_of_ne h32

theorem featConv_getField_self {ft : Feature} {f : String}
    (hnod : ft.keys.Nodup) (hf : f ∈ ft.keys) (h32 : (f ++ "_int32") ∉ ft.keys) :
    (featConv f ft).getField f = coerceVal (ft.getField f) := by
  have hne : f ≠ f ++ "_int32" := fun hh => h32 (hh ▸ hf)
  have hget1 : (Feature.mk (ft.attrs ++ [(f ++ "_int32", none)])).getField f = ft.getField f :=
    getAttr_append_of_ne hne
  have hkeyserase : f ∉ (ft.keys.erase f : List String) := hnod.not_mem_erase
  have h32erase : (f ++ "_int32") ∉ ((ft.keys : List String).erase f) := by
    intro hmem
    exact h32 (List.mem_of_mem_erase hmem)
  show getAttr (renameAttr (removeAttr (copyField ⟨ft.attrs ++ [(f ++ "_int32", none)]⟩ f
      (f ++ "_int32")).attrs f) (f ++ "_int32") f) f = _
  unfold copyField
  rw [hget1]
  cases hv : ft.getField f with
  | none =>
    have hrem : removeAttr (ft.attrs ++ [(f ++ "_int32", none)]) f
        = removeAttr ft.attrs f ++ [(f ++ "_int32", none)] :=
      removeAttr_append_left hf
    simp only [hrem]
    have hkeys : (removeAttr ft.attrs f ++ [(f ++ "_int32", (none : Option Int))]).map Prod.fst
        = ft.keys.erase f ++ [f ++ "_int32"] := by
      simp [keys_removeAttr]
      rfl
    have hfnot : f ∉ (removeAttr ft.attrs f ++ [(f ++ "_int32", (none : Option Int))]).map
        Prod.fst := by
      rw [hkeys]
      simp only [List.mem_append, List.mem_singleton]
      push_neg
      exact ⟨hkeyserase, hne⟩
    rw [getAttr_renameAttr_self hfnot]
    have : (f ++ "_int32") ∉ (removeAttr ft.attrs f).map Prod.fst := by
      rw [keys_removeAttr]
      exact h32erase
    rw [getAttr_append_last this]
    rfl
  | some v =>
    by_cases hr : int32Min ≤ v ∧ v ≤ int32Max
    · simp only [hr, if_pos]
      have hset : setAttr (ft.attrs ++ [(f ++ "_int32", none)]) (f ++ "_int32") (some v)
          = ft.attrs ++ [(f ++ "_int32", some v)] :=
        setAttr_append_last h32
      show getAttr (renameAttr (removeAttr (setAttr (ft.attrs ++ [(f ++ "_int32", none)])
          (f ++ "_int32") (some v)) f) (f ++ "_int32") f) f = _
      rw [hset]
      have hrem : removeAttr (ft.attrs ++ [(f ++ "_int32", some v)]) f
          = removeAttr ft.attrs f ++ [(f ++ "_int32", some v)] :=
        removeAttr_append_left hf
      rw [hrem]
      have hkeys : (removeAttr ft.attrs f ++ [(f ++ "_int32", some v)]).map Prod.fst
          = ft.keys.erase f ++ [f ++ "_int32"] := by
        simp [keys_removeAttr]
        rfl
      have hfnot : f ∉ (removeAttr ft.attrs f ++ [(f ++ "_int32", some v)]).map Prod.fst := by
        rw [hkeys]
        simp only [List.mem_append, List.mem_singleton]
        push_neg
        exact ⟨hkeyserase, hne⟩
      rw [getAttr_renameAttr_self hfnot]
      have h32no : (f ++ "_int32") ∉ (removeAttr ft.attrs f).map Prod.fst := by
        rw [keys_removeAttr]
        exact h32erase
      rw [getAttr_append_last h32no]
      simp [coerceVal, hr]
    · simp only [hr, if_neg, not_false_iff]
      have hrem : removeAttr (ft.attrs ++ [(f ++ "_int32", none)]) f
          = removeAttr ft.attrs f ++ [(f ++ "_int32", none)] :=
        removeAttr_append_left hf
      rw [hrem]
      have hkeys : (removeAttr ft.attrs f ++ [(f ++ "_int32", (none : Option Int))]).map Prod.fst
          = ft.keys.erase f ++ [f ++ "_int32"] := by
        simp [keys_removeAttr]
        rfl
      have hfnot : f ∉ (removeAttr ft.attrs f ++ [(f ++ "_int32", (none : Option Int))]).map
          Prod.fst := by
        rw [hkeys]
        simp only [List.mem_append, List.mem_singleton]
        push_neg
        exact ⟨hkeyserase, hne⟩
      rw [getAttr_renameAttr_self hfnot]
      have h32no : (f ++ "_int32") ∉ (removeAttr ft.attrs f).map Prod.fst := by
        rw [keys_removeAttr]
        exact h32erase
      rw [getAttr_append_last h32no]
      simp [coerceVal, hr]

theorem featFold_keys_perm {E : List String} :
    ∀ (ts : List String) (ft : Feature), List.Perm ft.keys E → (∀ g ∈ ts, g ∈ E) →
    List.Perm ((ts.foldl (featStep E) ft).keys) E := by
  intro ts
  induction ts with
  | nil => intro ft hperm _; exact hperm
  | cons g ts ih =>
    intro ft hperm hts
    by_cases hskip : (g ++ "_int32") ∈ E
    · have hstep : featStep E ft g = ft := by simp [featStep, hskip]
      simp only [List.foldl_cons, hstep]
      exact ih ft hperm (fun x hx => hts x (List.mem_cons_of_mem _ hx))
    · have hstep : featStep E ft g = featConv g ft := by simp [featStep, hskip]
      have hg : g ∈ ft.keys := hperm.mem_iff.mpr (hts g (List.mem_cons_self _ _))
      have h32 : (g ++ "_int32") ∉ ft.keys := fun hmem => hskip (hperm.mem_iff.mp hmem)
      simp only [List.foldl_cons, hstep]
      exact ih (featConv g ft) ((keys_featConv_perm hg h32).trans hperm)
        (fun x hx => hts x (List.mem_cons_of_mem _ hx))

theorem featFold_getField_preserve {E : List String} {f : String} :
    ∀ (ts : List String) (ft : Feature), List.Perm ft.keys E → (∀ g ∈ ts, g ∈ E) →
    f ∈ E → f ∉ ts → (ts.foldl (featStep E) ft).getField f = ft.getField f := by
  intro ts
  induction ts with
  | nil => intro ft _ _ _ _; rfl
  | cons g ts ih =>
    intro ft hperm hts hf hfts
    simp only [List.mem_cons] at hfts
    push_neg at hfts
    by_cases hskip : (g ++ "_int32") ∈ E
    · have hstep : featStep E ft g = ft := by simp [featStep, hskip]
      simp only [List.foldl_cons, hstep]
      exact ih ft hperm (fun x hx => hts x (List.mem_cons_of_mem _ hx)) hf hfts.2
    · have hstep : featStep E ft g = featConv g ft := by simp [featStep, hskip]
      have hg : g ∈ ft.keys := hperm.mem_iff.mpr (hts g (List.mem_cons_self _ _))
      have h32 : (g ++ "_int32") ∉ ft.keys := fun hmem => hskip (hperm.mem_iff.mp hmem)
      have hf32 : f ≠ g ++ "_int32" := fun hh => hskip (hh ▸ hf)
      simp only [List.foldl_cons, hstep]
      rw [ih (featConv g ft) ((keys_featConv_perm hg h32).trans hperm)
        (fun x hx => hts x (List.mem_cons_of_mem _ hx)) hf hfts.2]
      exact featConv_getField_ne hfts.1 hf32

theorem featFold_getField_main {E : List String} {f : String} (hE : E.Nodup) :
    ∀ (ts : List String) (ft : Feature), ts.Nodup → f ∈ ts → (f ++ "_int32") ∉ E →
    (∀ g ∈ ts, g ∈ E) → List.Perm ft.keys E →
    (ts.foldl (featStep E) ft).getField f = coerceVal (ft.getField f) := by
  intro ts
  induction ts with
  | nil => intro ft _ hf; simp at hf
  | cons g ts ih =>
    intro ft hnod hf hf32 hts hperm
    by_cases hfg : f = g
    · subst hfg
      have hstep : featStep E ft f = featConv f ft := by simp [featStep, hf32]
      have hfk : f ∈ ft.keys := hperm.mem_iff.mpr (hts f (List.mem_cons_self _ _))
      have h32k : (f ++ "_int32") ∉ ft.keys := fun hmem => hf32 (hperm.mem_iff.mp hmem)
      have hknod : ft.keys.Nodup := hperm.nodup_iff.mpr hE
      simp only [List.foldl_cons, hstep]
      rw [featFold_getField_preserve ts (featConv f ft)
        ((keys_featConv_perm hfk h32k).trans hperm)
        (fun x hx => hts x (List.mem_cons_of_mem _ hx))
        (hts f (List.mem_cons_self _ _)) (List.nodup_cons.mp hnod).1]
      exact featConv_getField_self hknod hfk h32k
    · have hf' : f ∈ ts := by
        rcases List.mem_cons.mp hf with h | h
        · exact absurd h hfg
        · exact h
      have hfE : f ∈ E := hts f hf
      by_cases hskip : (g ++ "_int32") ∈ E
      · have hstep : featStep E ft g = ft := by simp [featStep, hskip]
        simp only [List.foldl_cons, hstep]
        exact ih ft (List.nodup_cons.mp hnod).2 hf' hf32
          (fun x hx => hts x (List.mem_cons_of_mem _ hx)) hperm
      · have hstep : featStep E ft g = featConv g ft := by simp [featStep, hskip]
        have hg : g ∈ ft.keys := hperm.mem_iff.mpr (hts g (List.mem_cons_self _ _))
        have h32 : (g ++ "_int32") ∉ ft.keys := fun hmem => hskip (hperm.mem_iff.mp hmem)
        have hf32g : f ≠ g ++ "_int32" := fun hh => hskip (hh ▸ hfE)
        simp only [List.foldl_cons, hstep]
        rw [ih (featConv g ft) (List.nodup_cons.mp hnod).2 hf' hf32
          (fun x hx => hts x (List.mem_cons_of_mem _ hx))
          ((keys_featConv_perm hg h32).trans hperm),
          featConv_getField_ne hfg hf32g]

/-! ### Trace lemmas -/

theorem coerceFoldT_fst {E : List String} :
    ∀ (ts : List String) (acc : Layer) (tr : List Event),
    (ts.foldl (coerceStepT E) (acc, tr)).1 = ts.foldl (coerceStep E) acc := by
  intro ts
  induction ts with
  | nil => intro acc tr; rfl
  | cons g ts ih =>
    intro acc tr
    by_cases hskip : (g ++ "_int32") ∈ E <;>
      simp [coerceStepT, coerceStep, hskip, List.foldl_cons, ih]

theorem coerceFoldT_trace_append {E : List String} :
    ∀ (ts : List String) (acc : Layer) (tr : List Event),
    (ts.foldl (coerceStepT E) (acc, tr)).2 =
      tr ++ (ts.foldl (coerceStepT E) (acc, [])).2 := by
  intro ts
  induction ts with
  | nil => intro acc tr; simp
  | cons g ts ih =>
    intro acc tr
    by_cases hskip : (g ++ "_int32") ∈ E
    · simp only [List.foldl_cons, coerceStepT, hskip, if_pos, List.nil_append]
      rw [ih acc (tr ++ [Event.skipExisting acc.lname (g ++ "_int32")]),
        ih acc [Event.skipExisting acc.lname (g ++ "_int32")], List.append_assoc]
    · simp only [List.foldl_cons, coerceStepT, hskip, if_neg, not_false_iff,
        List.nil_append]
      rw [ih (convertField acc g) (tr ++ convertFieldEvents acc g),
        ih (convertField acc g) (convertFieldEvents acc g), List.append_assoc]

theorem overflow_mem_convertFieldEvents {l : Layer} {fname : String} {ft : Feature} {v : Int}
    (hft : ft ∈ l.features) (hv : ft.getField fname = some v)
    (hr : ¬(int32Min ≤ v ∧ v ≤ int32Max)) :
    Event.overflowWarning fname v ∈ convertFieldEvents l fname := by
  unfold convertFieldEvents
  refine List.mem_append.mpr (Or.inl (List.mem_append.mpr (Or.inr ?_)))
  refine List.mem_filterMap.mpr ⟨ft, hft, ?_⟩
  rw [hv]
  simp [hr]

/-- An out-of-range value of a converted field is reported in the trace
of the per-layer pass. -/
theorem coerce_overflow_reported {l : Layer} {f : String}
    (hnod : (fieldNames l).Nodup)
    (halign : ∀ ft ∈ l.features, ft.keys = fieldNames l)
    (hf : (⟨f, FieldType.int64⟩ : FieldDefn) ∈ l.fields)
    (hns : (f ++ "_int32") ∉ fieldNames l) :
    ∀ ft ∈ l.features, ∀ v : Int, ft.getField f = some v →
    ¬(int32Min ≤ v ∧ v ≤ int32Max) →
    Event.overflowWarning f v ∈ (coerceLayerT l).2 := by
  intro ft hft v hv hr
  have hfts : f ∈ toConvert l := mem_toConvert.mpr ⟨_, hf, rfl, rfl⟩
  have htsnod : (toConvert l).Nodup := toConvert_nodup hnod
  rcases List.append_of_mem hfts with ⟨pre, post, hsplit⟩
  have hfE : f ∈ fieldNames l := toConvert_subset hfts
  have hprenodup := hsplit ▸ htsnod
  rw [List.nodup_append] at hprenodup
  have hfpre : f ∉ pre := fun hmem =>
    hprenodup.2.2 hmem (List.mem_cons_self _ _)
  show Event.overflowWarning f v ∈
    ((toConvert l).foldl (coerceStepT (fieldNames l)) (l, [])).2
  rw [hsplit, List.foldl_append]
  have hfstP : (pre.foldl (coerceStepT (fieldNames l)) (l, [])).1
      = pre.foldl (coerceStep (fieldNames l)) l := coerceFoldT_fst pre l []
  set P := pre.foldl (coerceStepT (fieldNames l)) (l, []) with hP
  have hPpair : P = (P.1, P.2) := rfl
  rw [hPpair, List.foldl_cons]
  have hstep : coerceStepT (fieldNames l) (P.1, P.2) f
      = (convertField P.1 f, P.2 ++ convertFieldEvents P.1 f) := by
    simp [coerceStepT, hns]
  rw [hstep, coerceFoldT_trace_append]
  have hpresub : ∀ g ∈ pre, g ∈ fieldNames l := fun g hg =>
    toConvert_subset (hsplit ▸ List.mem_append.mpr (Or.inl hg))
  have hfeat : P.1.features
      = l.features.map (fun x => pre.foldl (featStep (fieldNames l)) x) := by
    rw [hfstP]
    exact coerce_fold_features pre l
  have hft' : (pre.foldl (featStep (fieldNames l)) ft) ∈ P.1.features := by
    rw [hfeat]
    exact List.mem_map_of_mem _ hft
  have hval : (pre.foldl (featStep (fieldNames l)) ft).getField f = some v := by
    rw [featFold_getField_preserve pre ft (by rw [halign ft hft]) hpresub hfE hfpre]
    exact hv
  have hone : Event.overflowWarning f v ∈ convertFieldEvents P.1 f :=
    overflow_mem_convertFieldEvents hft' hval hr
  exact List.mem_append.mpr (Or.inl (List.mem_append.mpr (Or.inr hone)))

/-! ### Transaction events -/

/-- Is an event one of the transaction-discipline events? -/
def isTransactionEvent : Event → Bool
  | Event.beginTx => true
  | Event.commitTx => true
  | Event.rollbackTx => true
  | _ => false

/-- Is an event a schema/data mutation? -/
def isMutationEvent : Event → Bool
  | Event.createField _ _ => true
  | Event.deleteField _ _ => true
  | Event.renameField _ _ _ => true
  | _ => false

theorem convertFieldEvents_no_transaction {l : Layer} {fname : String} {e : Event}
    (h : e ∈ convertFieldEvents l fname) : isTransactionEvent e = false := by
  unfold convertFieldEvents at h
  rcases List.mem_append.mp h with h | h
  · rcases List.mem_append.mp h with h | h
    · simp only [List.mem_singleton] at h
      subst h
      rfl
    · rcases List.mem_filterMap.mp h with ⟨ft, _, hft⟩
      cases hget : ft.getField fname with
      | none => rw [hget] at hft; simp at hft
      | some v =>
        rw [hget] at hft
        by_cases hr : int32Min ≤ v ∧ v ≤ int32Max
        · simp [hr] at hft
        · simp only [hr, if_neg, not_false_iff, Option.some.injEq] at hft
          subst hft
          rfl
  · rcases List.mem_cons.mp h with h | h
    · subst h; rfl
    · simp only [List.mem_singleton] at h
      subst h
      rfl

theorem coerceFoldT_no_transaction {E : List String} :
    ∀ (ts : List String) (acc : Layer) (tr : List Event),
    (∀ e ∈ tr, isTransactionEvent e = false) →
    ∀ e ∈ (ts.foldl (coerceStepT E) (acc, tr)).2, isTransactionEvent e = false := by
  intro ts
  induction ts with
  | nil => intro acc tr htr e he; exact htr e he
  | cons g ts ih =>
    intro acc tr htr e he
    by_cases hskip : (g ++ "_int32") ∈ E
    · rw [List.foldl_cons] at he
      have hstep : coerceStepT E (acc, tr) g
          = (acc, tr ++ [Event.skipExisting acc.lname (g ++ "_int32")]) := by
        simp [coerceStepT, hskip]
      rw [hstep] at he
      refine ih acc _ ?_ e he
      intro x hx
      rcases List.mem_append.mp hx with hx | hx
      · exact htr x hx
      · simp only [List.mem_singleton] at hx
        subst hx
        rfl
    · rw [List.foldl_cons] at he
      have hstep : coerceStepT E (acc, tr) g
          = (convertField acc g, tr ++ convertFieldEvents acc g) := by
        simp [coerceStepT, hskip]
      rw [hstep] at he
      refine ih (convertField acc g) _ ?_ e he
      intro x hx
      rcases List.mem_append.mp hx with hx | hx
      · exact htr x hx
      · exact convertFieldEvents_no_transaction hx

theorem coerceLayerT_no_transaction {l : Layer} {e : Event}
    (h : e ∈ (coerceLayerT l).2) : isTransactionEvent e = false :=
  coerceFoldT_no_transaction (toConvert l) l [] (by intro x hx; simp at hx) e h

theorem int64_to_int32T_layers_trace :
    ∀ (ls : List Layer) (accL : List Layer) (tr : List Event) (e : Event),
    e ∈ (ls.foldl (fun acc l =>
        let cl := coerceLayerT l
        (acc.1 ++ [cl.1], acc.2 ++ cl.2)) (accL, tr)).2 →
    e ∈ tr ∨ ∃ l ∈ ls, e ∈ (coerceLayerT l).2 := by
  intro ls
  induction ls with
  | nil => intro accL tr e he; exact Or.inl he
  | cons l ls ih =>
    intro accL tr e he
    rw [List.foldl_cons] at he
    rcases ih _ _ e he with hmem | ⟨l', hl', he'⟩
    · rcases List.mem_append.mp hmem with hmem | hmem
      · exact Or.inl hmem
      · exact Or.inr ⟨l, List.mem_cons_self _ _, hmem⟩
    · exact Or.inr ⟨l', List.mem_cons_of_mem _ hl', he'⟩

theorem int64_to_int32T_no_transaction {oc : Option Container} {e : Event}
    (h : e ∈ (int64_to_int32T oc).2) : isTransactionEvent e = false := by
  cases oc with
  | none =>
    simp only [int64_to_int32T, List.mem_singleton] at h
    subst h
    rfl
  | some c =>
    simp only [int64_to_int32T] at h
    rcases int64_to_int32T_layers_trace c.layers [] [] e h with hmem | ⟨l, _, he⟩
    · simp at hmem
    · exact coerceLayerT_no_transaction he

theorem mem_zip_map_snd {α β : Type} (F : α → β) :
    ∀ (xs : List α) (p : α × β), p ∈ xs.zip (xs.map F) → p.2 = F p.1 := by
  intro xs
  induction xs with
  | nil => intro p hp; simp at hp
  | cons x rest ih =>
    intro p hp
    rw [List.map_cons, List.zip_cons_cons] at hp
    rcases List.mem_cons.mp hp with h | h
    · rw [h]
    · exact ih p h

/-! ## Claim theorems about the Schema Coercion Engine -/

/-- C1: during schema coercion (`int64_to_int32`), for every feature and
every 64-bit integer field `f` that the pass actually coerces (its
`_int32` work name is not already taken, which is the precondition for
the copy loop to run): a `NULL` value stays `NULL`, a value within
`[-2147483648, 2147483647]` is carried over exactly, and an out-of-range
value is absent from the result and reported as a non-fatal overflow
warning.  The boundary behaviour (`2147483647` kept, `2147483648`
dropped) is the instance checked by the witness. -/
theorem C1_overflow_policy (l : Layer) (f : String)
    (hnod : (fieldNames l).Nodup)
    (halign : ∀ ft ∈ l.features, ft.keys = fieldNames l)
    (hf : (⟨f, FieldType.int64⟩ : FieldDefn) ∈ l.fields)
    (hns : (f ++ "_int32") ∉ fieldNames l) :
    (coerceLayer l).features.length = l.features.length ∧
    (∀ p ∈ l.features.zip (coerceLayer l).features,
      p.2.getField f = coerceVal (p.1.getField f)) ∧
    (∀ ft ∈ l.features, ∀ v : Int, ft.getField f = some v →
      ¬(int32Min ≤ v ∧ v ≤ int32Max) →
      Event.overflowWarning f v ∈ (coerceLayerT l).2) := by
  have hfts : f ∈ toConvert l := mem_toConvert.mpr ⟨_, hf, rfl, rfl⟩
  have htsnod : (toConvert l).Nodup := toConvert_nodup hnod
  have hsub : ∀ g ∈ toConvert l, g ∈ fieldNames l := fun _ hg => toConvert_subset hg
  refine ⟨?_, ?_, ?_⟩
  · rw [coerceLayer_features]
    exact (List.length_map _ _).symm ▸ rfl
  · intro p hp
    rw [coerceLayer_features] at hp
    have hp2 := mem_zip_map_snd _ l.features p hp
    have hp1 : p.1 ∈ l.features := (List.of_mem_zip hp).1
    rw [hp2]
    exact featFold_getField_main hnod (toConvert l) p.1 htsnod hfts hns hsub
      (by rw [halign p.1 hp1])
  · exact coerce_overflow_reported hnod halign hf hns

/-- Concrete single-`Int64`-field layer exercising both boundary values
and `NULL` passthrough. -/
def exC1Layer : Layer :=
  ⟨"L", [⟨"a", FieldType.int64⟩],
    [⟨[("a", some 2147483647)]⟩, ⟨[("a", some 2147483648)]⟩, ⟨[("a", none)]⟩]⟩

theorem C1_overflow_policy_witness :
    ((fieldNames exC1Layer).Nodup ∧
      (∀ ft ∈ exC1Layer.features, ft.keys = fieldNames exC1Layer) ∧
      (⟨"a", FieldType.int64⟩ : FieldDefn) ∈ exC1Layer.fields ∧
      ("a" ++ "_int32") ∉ fieldNames exC1Layer) ∧
    ((coerceLayer exC1Layer).features.length = exC1Layer.features.length ∧
    (∀ p ∈ exC1Layer.features.zip (coerceLayer exC1Layer).features,
      p.2.getField ("a") = coerceVal (p.1.getField ("a"))) ∧
    (∀ ft ∈ exC1Layer.features, ∀ v : Int, ft.getField ("a") = some v →
      ¬(int32Min ≤ v ∧ v ≤ int32Max) →
      Event.overflowWarning ("a") v ∈ (coerceLayerT exC1Layer).2)) :=
  ⟨⟨by decide, by decide, by decide, by decide⟩,
    C1_overflow_policy exC1Layer ("a") (by decide) (by decide) (by decide) (by decide)⟩

/-- C2: the coercion pass is idempotent on containers with well-formed
(duplicate-free) schemas: a second run changes nothing; no duplicate
field is ever created (field-name lists stay duplicate-free); and when
the derived work-field name already exists on a layer, the conversion
step skips that field entirely. -/
theorem C2_coercion_idempotent (c : Container)
    (h : ∀ L ∈ c.layers, (fieldNames L).Nodup) :
    int64_to_int32 (int64_to_int32 (some c)) = int64_to_int32 (some c) ∧
    (∀ L ∈ c.layers, (fieldNames (coerceLayer L)).Nodup) ∧
    (∀ (existing : List String) (acc : Layer) (fname : String),
      (fname ++ "_int32") ∈ existing → coerceStep existing acc fname = acc) := by
  refine ⟨?_, ?_, ?_⟩
  · simp only [int64_to_int32, List.map_map, Option.some.injEq, Container.mk.injEq]
    refine List.map_congr_left fun L hL => ?_
    exact coerceLayer_idem (h L hL)
  · intro L hL
    exact ((coerceLayer_names_perm (h L hL)).nodup_iff).mpr (h L hL)
  · intro existing acc fname hmem
    simp [coerceStep, hmem]

/-- Concrete container whose first layer was already partially coerced
(`b_int32` exists), whose second layer is fresh. -/
def exC2Container : Container :=
  ⟨[⟨"L1", [⟨"b", FieldType.int64⟩, ⟨"b_int32", FieldType.int32⟩], [⟨[("b", some 7), ("b_int32", none)]⟩]⟩,
    ⟨"L2", [⟨"a", FieldType.int64⟩, ⟨"t", FieldType.str⟩], [⟨[("a", some 3), ("t", none)]⟩]⟩]⟩

theorem C2_coercion_idempotent_witness :
    (∀ L ∈ exC2Container.layers, (fieldNames L).Nodup) ∧
    (int64_to_int32 (int64_to_int32 (some exC2Container)) =
        int64_to_int32 (some exC2Container) ∧
      (∀ L ∈ exC2Container.layers, (fieldNames (coerceLayer L)).Nodup) ∧
      (∀ (existing : List String) (acc : Layer) (fname : String),
        (fname ++ "_int32") ∈ existing → coerceStep existing acc fname = acc)) :=
  ⟨by decide, C2_coercion_idempotent exC2Container (by decide)⟩

/-- Layer refuting C7 as stated: field `a` is converted (and moves to
the end of the schema, breaking the original field order) while field
`c` stays `Int64` because `c_int32` already exists. -/
def exC7Layer : Layer :=
  ⟨"L", [⟨"a", FieldType.int64⟩, ⟨"b", FieldType.str⟩, ⟨"c", FieldType.int64⟩,
    ⟨"c_int32", FieldType.str⟩],
    [⟨[("a", some 1), ("b", none), ("c", some 5), ("c_int32", none)]⟩]⟩

/-- C7 as stated is false: after `int64_to_int32`, the ordered field
names differ from the pre-pass schema, and the `Int64` field `c`, whose
`c_int32` work name already existed, survives unconverted — still named
`c`, still of 64-bit type. -/
theorem C7_counterexample :
    (coerceLayer exC7Layer).fields.map FieldDefn.name ≠
      exC7Layer.fields.map FieldDefn.name ∧
    (⟨"c", FieldType.int64⟩ : FieldDefn) ∈ (coerceLayer exC7Layer).fields := by
  decide

/-- C7 (amended): after `int64_to_int32` on a layer with duplicate-free
field names: every `Int64` field whose derived `_int32` work name was
not already present is retired and replaced by an `Int32` field
carrying the original field name; an `Int64` field whose work name was
already present is skipped and its field definition survives in the
schema unchanged (same name, still `Int64`) — this clause holds for
every field with a pre-existing work name, `Int64` ones included;
conversely, any field still of type `Int64` afterwards is such a
skipped field; and the final field-name list is a permutation of the
pre-pass one — the same names, but not necessarily the same order. -/
theorem C7_final_schema (l : Layer) (h : (fieldNames l).Nodup) :
    List.Perm (fieldNames (coerceLayer l)) (fieldNames l) ∧
    (∀ d ∈ l.fields, d.ftype = FieldType.int64 → (d.name ++ "_int32") ∉ fieldNames l →
      (⟨d.name, FieldType.int32⟩ : FieldDefn) ∈ (coerceLayer l).fields) ∧
    (∀ d ∈ l.fields, (d.name ++ "_int32") ∈ fieldNames l →
      d ∈ (coerceLayer l).fields) ∧
    (∀ d ∈ (coerceLayer l).fields, d.ftype = FieldType.int64 →
      (d.name ++ "_int32") ∈ fieldNames l) :=
  ⟨coerceLayer_names_perm h, coerceLayer_converted h, coerceLayer_skipped_survive,
    coerceLayer_int64_char h⟩

theorem C7_final_schema_witness :
    (fieldNames exC7Layer).Nodup ∧
    (List.Perm (fieldNames (coerceLayer exC7Layer)) (fieldNames exC7Layer) ∧
      (∀ d ∈ exC7Layer.fields, d.ftype = FieldType.int64 →
        (d.name ++ "_int32") ∉ fieldNames exC7Layer →
        (⟨d.name, FieldType.int32⟩ : FieldDefn) ∈ (coerceLayer exC7Layer).fields) ∧
      (∀ d ∈ exC7Layer.fields, (d.name ++ "_int32") ∈ fieldNames exC7Layer →
        d ∈ (coerceLayer exC7Layer).fields) ∧
      (∀ d ∈ (coerceLayer exC7Layer).fields, d.ftype = FieldType.int64 →
        (d.name ++ "_int32") ∈ fieldNames exC7Layer)) :=
  ⟨by decide, C7_final_schema exC7Layer (by decide)⟩

/-- Modelled from the spec: a per-container pass "wrapped so that a
failure partway rolls back all changes made in that invocation
(begin/commit/rollback discipline around the whole per-Container
pass)" would open its event trace with a transaction begin and close it
with a commit or rollback. -/
def wrappedInTransaction (tr : List Event) : Prop :=
  tr.head? = some Event.beginTx ∧
    (tr.getLast? = some Event.commitTx ∨ tr.getLast? = some Event.rollbackTx)

/-- Single-layer container on which the pass performs schema mutations. -/
def exC8Container : Container :=
  ⟨[⟨"L", [⟨"a", FieldType.int64⟩], [⟨[("a", some 1)]⟩]⟩]⟩

/-- C8 as stated is false: on a container the pass does mutate, the
emitted action trace is not wrapped in any begin/commit/rollback
discipline — no transaction event appears at either end of the trace. -/
theorem C8_counterexample :
    (int64_to_int32T (some exC8Container)).2 ≠ [] ∧
    (∃ e ∈ (int64_to_int32T (some exC8Container)).2, isMutationEvent e = true) ∧
    ¬ wrappedInTransaction ((int64_to_int32T (some exC8Container)).2) := by
  refine ⟨by decide, by decide, ?_⟩
  unfold wrappedInTransaction
  decide

/-- C8 (amended): the coercion pass runs its schema mutations without
any begin/commit/rollback discipline — its action trace never contains
a transaction event, on any input; the open-failure half of the claim
does hold: when the container cannot be opened the pass emits an
explicit open-failure report and performs no mutation. -/
theorem C8_no_transaction (oc : Option Container) :
    (∀ e ∈ (int64_to_int32T oc).2, isTransactionEvent e = false) ∧
    ((int64_to_int32T none).1 = none ∧
      (∀ e ∈ (int64_to_int32T none).2, isMutationEvent e = false) ∧
      Event.openFailed ∈ (int64_to_int32T none).2) := by
  refine ⟨fun e he => int64_to_int32T_no_transaction he, rfl, ?_, ?_⟩
  · intro e he
    simp only [int64_to_int32T, List.mem_singleton] at he
    subst he
    rfl
  · simp [int64_to_int32T]

theorem C8_no_transaction_witness :
    (Event.createField ("L") "a_int32" ∈ (int64_to_int32T (some exC8Container)).2) ∧
    isTransactionEvent (Event.createField ("L") "a_int32") = false :=
  ⟨by decide, (C8_no_transaction (some exC8Container)).1 _ (by decide)⟩

/-! ## Export Engine (`export_working_dir`, src/controllers/data/export_data.py)

The export pass asks the Kart collaborator for the tracked layer names
(`kart data ls` run in the working tree; a `CalledProcessError` or an
empty list aborts the pass), opens the GeoPackage, and for each returned
name applies the nested include/exclude checks, the empty-layer check,
the driver check (fatal `exit(1)` when the ESRI Shapefile driver is
unavailable), deletes a pre-existing artifact at the resolved path,
creates the data source and the layer (each failure skips just that
layer), and copies all field definitions and features.

The file system is an association list from path to `DiskFile`; `stub`
models a data source that was created but whose layer creation failed. -/

inductive DiskFile
  | stub
  | shp (lname : String) (fieldDefs : List FieldDefn) (features : List Feature)
      (encoding : String)
deriving DecidableEq, Repr

abbrev Disk := List (String × DiskFile)

def diskGet : Disk → String → Option DiskFile
  | [], _ => none
  | q :: rest, p => if q.1 = p then some q.2 else diskGet rest p

def diskDelete : Disk → String → Disk
  | [], _ => []
  | q :: rest, p => if q.1 = p then diskDelete rest p else q :: diskDelete rest p

def diskSet (d : Disk) (p : String) (f : DiskFile) : Disk :=
  diskDelete d p ++ [(p, f)]

theorem diskGet_delete_self (d : Disk) (p : String) : diskGet (diskDelete d p) p = none := by
  induction d with
  | nil => rfl
  | cons q rest ih =>
    by_cases hq : q.1 = p <;> simp [diskDelete, hq, diskGet, ih]

theorem diskGet_delete_ne {d : Disk} {p q : String} (h : q ≠ p) :
    diskGet (diskDelete d p) q = diskGet d q := by
  induction d with
  | nil => rfl
  | cons e rest ih =>
    obtain ⟨ek, ev⟩ := e
    by_cases he : ek = p
    · subst he
      have : ¬ ek = q := fun hh => h hh.symm
      simp [diskDelete, diskGet, this, ih]
    · by_cases heq : ek = q
      · subst heq
        simp [diskDelete, he, diskGet]
      · simp [diskDelete, he, diskGet, heq, ih]

theorem diskGet_set_self (d : Disk) (p : String) (f : DiskFile) :
    diskGet (diskSet d p f) p = some f := by
  unfold diskSet
  induction d with
  | nil => simp [diskGet, diskDelete]
  | cons q rest ih =>
    by_cases hq : q.1 = p <;> simp [diskDelete, hq, diskGet, ih]

theorem diskGet_set_ne {d : Disk} {p q : String} {f : DiskFile} (h : q ≠ p) :
    diskGet (diskSet d p f) q = diskGet d q := by
  unfold diskSet
  have hpq : ¬ p = q := fun hh => h hh.symm
  induction d with
  | nil => simp [diskGet, diskDelete, hpq]
  | cons e rest ih =>
    obtain ⟨ek, ev⟩ := e
    by_cases he : ek = p
    · subst he
      have : ¬ ek = q := fun hh => h hh.symm
      simp [diskDelete, diskGet, this, ih]
    · by_cases heq : ek = q
      · subst heq
        simp [diskDelete, he, diskGet]
      · simp [diskDelete, he, diskGet, heq, ih]

theorem string_append_right_cancel {s t u : String} (h : s ++ u = t ++ u) : s = t := by
  have hd : (s ++ u).data = (t ++ u).data := by rw [h]
  simp only [String.data_append] at hd
  exact String.ext (List.append_cancel_right hd)

theorem string_append_left_cancel {s t u : String} (h : u ++ s = u ++ t) : s = t := by
  have hd : (u ++ s).data = (u ++ t).data := by rw [h]
  simp only [String.data_append] at hd
  exact String.ext (List.append_cancel_left hd)

/-- Deterministic artifact path: `os.path.join(output_dir, f"{layer_name}.shp")`. -/
def shpPath (outputDir n : String) : String :=
  outputDir ++ "/" ++ n ++ ".shp"

theorem shpPath_injective {outputDir n m : String} (h : shpPath outputDir n = shpPath outputDir m) :
    n = m := by
  unfold shpPath at h
  exact string_append_left_cancel (string_append_right_cancel h)

/-- Static export configuration (include/exclude lists, empty-layer
flag, encoding, output directory). -/
structure ExpCfg where
  outputDir : String
  excludeLayers : List String
  includeLayers : List String
  exportEmptyLayers : Bool
  encoding : String
deriving DecidableEq, Repr

/-- Host facts the pass encounters: driver availability and the
paths/layers on which data-source or layer creation fails. -/
structure ExportEnv where
  driverAvailable : Bool
  dsCreateFails : List String
  layerCreateFails : List String
deriving DecidableEq, Repr

/-- Python's `layer_name.startswith("X")` for the one-character literal
`"X"`: the first character of the name is `X`. -/
def startsWithX (n : String) : Bool :=
  match n.data with
  | [] => false
  | c :: _ => c == 'X'

/-- The layer-selection policy of the pass, as a pure predicate:
not excluded, and included or starting with the literal `"X"`. -/
def layerEligible (cfg : ExpCfg) (n : String) : Bool :=
  decide (n ∉ cfg.excludeLayers ∧ (n ∈ cfg.includeLayers ∨ startsWithX n = true))

def Container.findLayer (c : Container) (n : String) : Option Layer :=
  c.layers.find? (fun L => L.lname == n)

inductive ExpEvent
  | skippedExcluded (n : String)
  | skippedNotIncluded (n : String)
  | layerNotFound (n : String)
  | skippedEmpty (n : String)
  | dsCreateFailed (p : String)
  | layerCreateFailed (n : String)
  | exported (n : String)
deriving DecidableEq, Repr

inductive StepRes
  | cont (disk : Disk) (log : List ExpEvent)
  | fatalStep (disk : Disk) (log : List ExpEvent)
deriving DecidableEq, Repr

def StepRes.disk : StepRes → Disk
  | StepRes.cont d _ => d
  | StepRes.fatalStep d _ => d

def StepRes.log : StepRes → List ExpEvent
  | StepRes.cont _ lg => lg
  | StepRes.fatalStep _ lg => lg

inductive ExportResult
  | fatal (disk : Disk) (log : List ExpEvent)
  | done (disk : Disk) (log : List ExpEvent)
deriving DecidableEq, Repr

def ExportResult.resDisk : ExportResult → Disk
  | ExportResult.fatal d _ => d
  | ExportResult.done d _ => d

def ExportResult.resLog : ExportResult → List ExpEvent
  | ExportResult.fatal _ lg => lg
  | ExportResult.done _ lg => lg

/-- The body of the per-layer loop of `export_working_dir`, in the
code's order: exclude check, include/prefix check, layer lookup,
empty-layer check, driver check (`exit(1)` when unavailable), delete of
a pre-existing artifact, data-source creation, layer creation, field
and feature copy. -/
def exportLayerStep (cfg : ExpCfg) (env : ExportEnv) (c : Container) (disk : Disk)
    (log : List ExpEvent) (n : String) : StepRes :=
  if n ∈ cfg.excludeLayers then
    StepRes.cont disk (log ++ [ExpEvent.skippedExcluded n])
  else if n ∈ cfg.includeLayers ∨ startsWithX n then
    match c.findLayer n with
    | none => StepRes.cont disk (log ++ [ExpEvent.layerNotFound n])
    | some L =>
      if L.features.length = 0 ∧ cfg.exportEmptyLayers = false then
        StepRes.cont disk (log ++ [ExpEvent.skippedEmpty n])
      else if env.driverAvailable = false then
        StepRes.fatalStep disk log
      else
        let p := shpPath cfg.outputDir n
        let disk1 := if (diskGet disk p).isSome then diskDelete disk p else disk
        if p ∈ env.dsCreateFails then
          StepRes.cont disk1 (log ++ [ExpEvent.dsCreateFailed p])
        else
          let disk2 := diskSet disk1 p DiskFile.stub
          if n ∈ env.layerCreateFails then
            StepRes.cont disk2 (log ++ [ExpEvent.layerCreateFailed n])
          else
            StepRes.cont (diskSet disk2 p (DiskFile.shp n L.fields L.features cfg.encoding))
              (log ++ [ExpEvent.exported n])
  else
    StepRes.cont disk (log ++ [ExpEvent.skippedNotIncluded n])

def exportLoop (cfg : ExpCfg) (env : ExportEnv) (c : Container) :
    List String → Disk → List ExpEvent → ExportResult
  | [], disk, log => ExportResult.done disk log
  | n :: rest, disk, log =>
    match exportLayerStep cfg env c disk log n with
    | StepRes.cont d lg => exportLoop cfg env c rest d lg
    | StepRes.fatalStep d lg => ExportResult.fatal d lg

/-- The whole export pass: missing GeoPackage file, a failing
`kart data ls`, an empty layer list, or an unopenable GeoPackage all
abort (`exit(1)`) before any layer is processed; otherwise the loop
runs over exactly the Kart-reported layer names. -/
def export_working_dir (cfg : ExpCfg) (env : ExportEnv) (gpkgExists : Bool)
    (kart : Except Unit (List String)) (oc : Option Container) (disk : Disk) : ExportResult :=
  if gpkgExists = false then ExportResult.fatal disk []
  else
    match kart with
    | Except.error _ => ExportResult.fatal disk []
    | Except.ok layers =>
      if layers = [] then ExportResult.fatal disk []
      else
        match oc with
        | none => ExportResult.fatal disk []
        | some c => exportLoop cfg env c layers disk []

/-! ### Lemmas about the export step -/

theorem layerEligible_iff {cfg : ExpCfg} {n : String} :
    layerEligible cfg n = true ↔
      (n ∉ cfg.excludeLayers ∧ (n ∈ cfg.includeLayers ∨ startsWithX n = true)) := by
  simp [layerEligible]

/-- Events emitted only by the selection policy. -/
def policySkipEvent : ExpEvent → Bool
  | ExpEvent.skippedExcluded _ => true
  | ExpEvent.skippedNotIncluded _ => true
  | _ => false

/-- Creation-failure events (data source or layer). -/
def isCreateFailEvent : ExpEvent → Bool
  | ExpEvent.dsCreateFailed _ => true
  | ExpEvent.layerCreateFailed _ => true
  | _ => false

/-- The single event a fully qualified layer contributes to the log. -/
def expEvOf (cfg : ExpCfg) (env : ExportEnv) (n : String) : ExpEvent :=
  if shpPath cfg.outputDir n ∈ env.dsCreateFails then
    ExpEvent.dsCreateFailed (shpPath cfg.outputDir n)
  else if n ∈ env.layerCreateFails then ExpEvent.layerCreateFailed n
  else ExpEvent.exported n

theorem step_excluded {cfg : ExpCfg} {env : ExportEnv} {c : Container} {disk : Disk}
    {log : List ExpEvent} {n : String} (h : n ∈ cfg.excludeLayers) :
    exportLayerStep cfg env c disk log n
      = StepRes.cont disk (log ++ [ExpEvent.skippedExcluded n]) := by
  simp [exportLayerStep, h]

theorem step_not_included {cfg : ExpCfg} {env : ExportEnv} {c : Container} {disk : Disk}
    {log : List ExpEvent} {n : String} (h1 : n ∉ cfg.excludeLayers)
    (h2 : n ∉ cfg.includeLayers) (h3 : startsWithX n = false) :
    exportLayerStep cfg env c disk log n
      = StepRes.cont disk (log ++ [ExpEvent.skippedNotIncluded n]) := by
  have : ¬ (n ∈ cfg.includeLayers ∨ startsWithX n = true) := by
    push_neg
    exact ⟨h2, by simp [h3]⟩
  simp [exportLayerStep, h1, this]

theorem step_qualified_driver_false {cfg : ExpCfg} {env : ExportEnv} {c : Container}
    {disk : Disk} {log : List ExpEvent} {n : String} {L : Layer}
    (helig : layerEligible cfg n = true) (hL : c.findLayer n = some L)
    (hne : ¬(L.features.length = 0 ∧ cfg.exportEmptyLayers = false))
    (hd : env.driverAvailable = false) :
    exportLayerStep cfg env c disk log n = StepRes.fatalStep disk log := by
  rcases layerEligible_iff.mp helig with ⟨h1, h2⟩
  have h2' : n ∈ cfg.includeLayers ∨ startsWithX n := by
    rcases h2 with h | h
    · exact Or.inl h
    · exact Or.inr h
  have hne2 : L.features = [] → cfg.exportEmptyLayers = true := by
    intro hnil
    cases hflag : cfg.exportEmptyLayers with
    | true => rfl
    | false => exact absurd ⟨by simp [hnil], hflag⟩ hne
  simp [exportLayerStep, h1, h2', hL, hne2, hd]
  exact hne2

theorem step_qualified_event {cfg : ExpCfg} {env : ExportEnv} {c : Container}
    {disk : Disk} {log : List ExpEvent} {n : String} {L : Layer}
    (helig : layerEligible cfg n = true) (hL : c.findLayer n = some L)
    (hne : ¬(L.features.length = 0 ∧ cfg.exportEmptyLayers = false))
    (hd : env.driverAvailable = true) :
    ∃ d', exportLayerStep cfg env c disk log n
      = StepRes.cont d' (log ++ [expEvOf cfg env n]) := by
  rcases layerEligible_iff.mp helig with ⟨h1, h2⟩
  have h2' : n ∈ cfg.includeLayers ∨ startsWithX n := by
    rcases h2 with h | h
    · exact Or.inl h
    · exact Or.inr h
  have hne2 : L.features = [] → cfg.exportEmptyLayers = true := by
    intro hnil
    cases hflag : cfg.exportEmptyLayers with
    | true => rfl
    | false => exact absurd ⟨by simp [hnil], hflag⟩ hne
  have hd' : ¬ env.driverAvailable = false := by simp [hd]
  by_cases h5 : shpPath cfg.outputDir n ∈ env.dsCreateFails
  · exact ⟨(if (diskGet disk (shpPath cfg.outputDir n)).isSome then
      diskDelete disk (shpPath cfg.outputDir n) else disk),
      by simp [exportLayerStep, h1, h2', hL, hne2, hd', h5, expEvOf]; exact hne2⟩
  · by_cases h6 : n ∈ env.layerCreateFails
    · exact ⟨diskSet (if (diskGet disk (shpPath cfg.outputDir n)).isSome then
        diskDelete disk (shpPath cfg.outputDir n) else disk) (shpPath cfg.outputDir n)
        DiskFile.stub,
        by simp [exportLayerStep, h1, h2', hL, hne2, hd', h5, h6, expEvOf]; exact hne2⟩
    · exact ⟨diskSet (diskSet (if (diskGet disk (shpPath cfg.outputDir n)).isSome then
        diskDelete disk (shpPath cfg.outputDir n) else disk) (shpPath cfg.outputDir n)
        DiskFile.stub) (shpPath cfg.outputDir n)
        (DiskFile.shp n L.fields L.features cfg.encoding),
        by simp [exportLayerStep, h1, h2', hL, hne2, hd', h5, h6, expEvOf]; exact hne2⟩

theorem step_success_artifact {cfg : ExpCfg} {env : ExportEnv} {c : Container}
    {disk : Disk} {log : List ExpEvent} {n : String} {L : Layer}
    (helig : layerEligible cfg n = true) (hL : c.findLayer n = some L)
    (hne : ¬(L.features.length = 0 ∧ cfg.exportEmptyLayers = false))
    (hd : env.driverAvailable = true)
    (hds : shpPath cfg.outputDir n ∉ env.dsCreateFails)
    (hlf : n ∉ env.layerCreateFails) :
    ∃ d', exportLayerStep cfg env c disk log n
        = StepRes.cont d' (log ++ [ExpEvent.exported n]) ∧
      diskGet d' (shpPath cfg.outputDir n)
        = some (DiskFile.shp n L.fields L.features cfg.encoding) := by
  rcases layerEligible_iff.mp helig with ⟨h1, h2⟩
  have h2' : n ∈ cfg.includeLayers ∨ startsWithX n := by
    rcases h2 with h | h
    · exact Or.inl h
    · exact Or.inr h
  have hne2 : L.features = [] → cfg.exportEmptyLayers = true := by
    intro hnil
    cases hflag : cfg.exportEmptyLayers with
    | true => rfl
    | false => exact absurd ⟨by simp [hnil], hflag⟩ hne
  have hd' : ¬ env.driverAvailable = false := by simp [hd]
  refine ⟨diskSet (diskSet (if (diskGet disk (shpPath cfg.outputDir n)).isSome then
      diskDelete disk (shpPath cfg.outputDir n) else disk) (shpPath cfg.outputDir n)
      DiskFile.stub) (shpPath cfg.outputDir n)
      (DiskFile.shp n L.fields L.features cfg.encoding), ?_, ?_⟩
  · simp [exportLayerStep, h1, h2', hL, hne2, hd', hds, hlf]
    exact hne2
  · exact diskGet_set_self _ _ _

theorem step_not_fatal_of_driver {cfg : ExpCfg} {env : ExportEnv} {c : Container}
    {disk : Disk} {log : List ExpEvent} {n : String}
    (hd : env.driverAvailable = true) :
    ∃ d' lg', exportLayerStep cfg env c disk log n = StepRes.cont d' lg' := by
  by_cases h1 : n ∈ cfg.excludeLayers
  · exact ⟨disk, log ++ [ExpEvent.skippedExcluded n], step_excluded h1⟩
  · by_cases h2 : n ∈ cfg.includeLayers ∨ startsWithX n
    · cases hL : c.findLayer n with
      | none =>
        exact ⟨disk, log ++ [ExpEvent.layerNotFound n],
          by simp [exportLayerStep, h1, h2, hL]⟩
      | some L =>
        by_cases h3 : L.features.length = 0 ∧ cfg.exportEmptyLayers = false
        · exact ⟨disk, log ++ [ExpEvent.skippedEmpty n],
            by simp [exportLayerStep, h1, h2, hL, h3]⟩
        · have hq : layerEligible cfg n = true := layerEligible_iff.mpr ⟨h1, by
            rcases h2 with h | h
            · exact Or.inl h
            · exact Or.inr h⟩
          rcases step_qualified_event hq hL h3 hd with ⟨d', heq⟩
          exact ⟨d', _, heq⟩
    · refine ⟨disk, log ++ [ExpEvent.skippedNotIncluded n], ?_⟩
      push_neg at h2
      exact step_not_included h1 h2.1 (by simpa using h2.2)

theorem step_other_path {cfg : ExpCfg} {env : ExportEnv} {c : Container}
    {disk : Disk} {log : List ExpEvent} {n m : String} (hmn : m ≠ n) :
    diskGet (exportLayerStep cfg env c disk log n).disk (shpPath cfg.outputDir m)
      = diskGet disk (shpPath cfg.outputDir m) := by
  have hpath : shpPath cfg.outputDir m ≠ shpPath cfg.outputDir n :=
    fun hh => hmn (shpPath_injective hh)
  unfold exportLayerStep
  by_cases h1 : n ∈ cfg.excludeLayers
  · simp [h1, StepRes.disk]
  · by_cases h2 : n ∈ cfg.includeLayers ∨ startsWithX n
    · cases hL : c.findLayer n with
      | none => simp [h1, h2, hL, StepRes.disk]
      | some L =>
        by_cases h3 : L.features = [] ∧ cfg.exportEmptyLayers = false
        · simp [h1, h2, hL, h3, StepRes.disk]
        · by_cases h4 : env.driverAvailable = false
          · simp [h1, h2, hL, h3, h4, StepRes.disk]
          · have hdel : diskGet (if (diskGet disk (shpPath cfg.outputDir n)).isSome then
                diskDelete disk (shpPath cfg.outputDir n) else disk) (shpPath cfg.outputDir m)
                = diskGet disk (shpPath cfg.outputDir m) := by
              by_cases h7 : (diskGet disk (shpPath cfg.outputDir n)).isSome
              · simp [h7, diskGet_delete_ne hpath]
              · simp [h7]
            by_cases h5 : shpPath cfg.outputDir n ∈ env.dsCreateFails
            · simp [h1, h2, hL, h3, h4, h5, StepRes.disk, hdel]
            · by_cases h6 : n ∈ env.layerCreateFails
              · simp [h1, h2, hL, h3, h4, h5, h6, StepRes.disk, diskGet_set_ne hpath, hdel]
              · simp [h1, h2, hL, h3, h4, h5, h6, StepRes.disk, diskGet_set_ne hpath, hdel]
    · simp [h1, h2, StepRes.disk]

theorem step_eligible_no_policy_skip {cfg : ExpCfg} {env : ExportEnv} {c : Container}
    {disk : Disk} {log : List ExpEvent} {n : String}
    (helig : layerEligible cfg n = true) :
    ∃ lg', (exportLayerStep cfg env c disk log n).log = log ++ lg' ∧
      ∀ e ∈ lg', policySkipEvent e = false := by
  rcases layerEligible_iff.mp helig with ⟨h1, h2⟩
  have h2' : n ∈ cfg.includeLayers ∨ startsWithX n := by
    rcases h2 with h | h
    · exact Or.inl h
    · exact Or.inr h
  unfold exportLayerStep
  cases hL : c.findLayer n with
  | none =>
    refine ⟨[ExpEvent.layerNotFound n], by simp [h1, h2', hL, StepRes.log], ?_⟩
    intro e he
    simp only [List.mem_singleton] at he
    subst he
    rfl
  | some L =>
    by_cases h3 : L.features = [] ∧ cfg.exportEmptyLayers = false
    · refine ⟨[ExpEvent.skippedEmpty n], by simp [h1, h2', hL, h3, StepRes.log], ?_⟩
      intro e he
      simp only [List.mem_singleton] at he
      subst he
      rfl
    · by_cases h4 : env.driverAvailable = false
      · refine ⟨[], by simp [h1, h2', hL, h3, h4, StepRes.log], ?_⟩
        intro e he
        simp at he
      · by_cases h5 : shpPath cfg.outputDir n ∈ env.dsCreateFails
        · refine ⟨[ExpEvent.dsCreateFailed (shpPath cfg.outputDir n)],
            by simp [h1, h2', hL, h3, h4, h5, StepRes.log], ?_⟩
          intro e he
          simp only [List.mem_singleton] at he
          subst he
          rfl
        · by_cases h6 : n ∈ env.layerCreateFails
          · refine ⟨[ExpEvent.layerCreateFailed n],
              by simp [h1, h2', hL, h3, h4, h5, h6, StepRes.log], ?_⟩
            intro e he
            simp only [List.mem_singleton] at he
            subst he
            rfl
          · refine ⟨[ExpEvent.exported n],
              by simp [h1, h2', hL, h3, h4, h5, h6, StepRes.log], ?_⟩
            intro e he
            simp only [List.mem_singleton] at he
            subst he
            rfl

/-! ### Lemmas about the export loop -/

theorem loop_other_path {cfg : ExpCfg} {env : ExportEnv} {c : Container} {m : String} :
    ∀ (names : List String) (disk : Disk) (log : List ExpEvent), m ∉ names →
    diskGet (exportLoop cfg env c names disk log).resDisk (shpPath cfg.outputDir m)
      = diskGet disk (shpPath cfg.outputDir m) := by
  intro names
  induction names with
  | nil => intro disk log _; rfl
  | cons n rest ih =>
    intro disk log hm
    simp only [List.mem_cons] at hm
    push_neg at hm
    have hpres : diskGet (exportLayerStep cfg env c disk log n).disk (shpPath cfg.outputDir m)
        = diskGet disk (shpPath cfg.outputDir m) := step_other_path hm.1
    cases hstep : exportLayerStep cfg env c disk log n with
    | cont d lg =>
      rw [hstep] at hpres
      simp only [StepRes.disk] at hpres
      simp only [exportLoop, hstep]
      rw [ih d lg hm.2, hpres]
    | fatalStep d lg =>
      rw [hstep] at hpres
      simp only [StepRes.disk] at hpres
      simp only [exportLoop, hstep]
      exact hpres

theorem loop_done_of_driver {cfg : ExpCfg} {env : ExportEnv} {c : Container}
    (hd : env.driverAvailable = true) :
    ∀ (names : List String) (disk : Disk) (log : List ExpEvent),
    ∃ d lg, exportLoop cfg env c names disk log = ExportResult.done d lg := by
  intro names
  induction names with
  | nil => intro disk log; exact ⟨disk, log, rfl⟩
  | cons n rest ih =>
    intro disk log
    rcases @step_not_fatal_of_driver cfg env c disk log n hd with ⟨d', lg', hstep⟩
    rcases ih d' lg' with ⟨d, lg, hloop⟩
    exact ⟨d, lg, by simp only [exportLoop]; rw [hstep]; exact hloop⟩

theorem loop_artifact_preserved {cfg : ExpCfg} {env : ExportEnv} {c : Container}
    {n : String} {L : Layer}
    (helig : layerEligible cfg n = true) (hL : c.findLayer n = some L)
    (hne : ¬(L.features.length = 0 ∧ cfg.exportEmptyLayers = false))
    (hd : env.driverAvailable = true)
    (hds : shpPath cfg.outputDir n ∉ env.dsCreateFails)
    (hlf : n ∉ env.layerCreateFails) :
    ∀ (names : List String) (disk : Disk) (log : List ExpEvent),
    diskGet disk (shpPath cfg.outputDir n)
      = some (DiskFile.shp n L.fields L.features cfg.encoding) →
    diskGet (exportLoop cfg env c names disk log).resDisk (shpPath cfg.outputDir n)
      = some (DiskFile.shp n L.fields L.features cfg.encoding) := by
  intro names
  induction names with
  | nil => intro disk log h; exact h
  | cons m rest ih =>
    intro disk log h
    by_cases hmn : m = n
    · subst hmn
      rcases @step_success_artifact cfg env c disk log m L helig hL hne hd hds hlf
        with ⟨d', hstep, hart⟩
      simp only [exportLoop, hstep]
      exact ih d' _ hart
    · rcases @step_not_fatal_of_driver cfg env c disk log m hd
        with ⟨d', lg', hstep⟩
      have hpres := @step_other_path cfg env c disk log m n (fun hh => hmn hh.symm)
      rw [hstep] at hpres
      simp only [StepRes.disk] at hpres
      simp only [exportLoop, hstep]
      exact ih d' lg' (hpres.trans h)

theorem loop_artifact {cfg : ExpCfg} {env : ExportEnv} {c : Container}
    {n : String} {L : Layer}
    (helig : layerEligible cfg n = true) (hL : c.findLayer n = some L)
    (hne : ¬(L.features.length = 0 ∧ cfg.exportEmptyLayers = false))
    (hd : env.driverAvailable = true)
    (hds : shpPath cfg.outputDir n ∉ env.dsCreateFails)
    (hlf : n ∉ env.layerCreateFails) :
    ∀ (names : List String) (disk : Disk) (log : List ExpEvent), n ∈ names →
    diskGet (exportLoop cfg env c names disk log).resDisk (shpPath cfg.outputDir n)
      = some (DiskFile.shp n L.fields L.features cfg.encoding) := by
  intro names
  induction names with
  | nil => intro disk log h; simp at h
  | cons m rest ih =>
    intro disk log hn
    by_cases hmn : m = n
    · subst hmn
      rcases @step_success_artifact cfg env c disk log m L helig hL hne hd hds hlf
        with ⟨d', hstep, hart⟩
      simp only [exportLoop, hstep]
      exact loop_artifact_preserved helig hL hne hd hds hlf rest d' _ hart
    · have hn' : n ∈ rest := by
        rcases List.mem_cons.mp hn with h | h
        · exact absurd h.symm hmn
        · exact h
      rcases @step_not_fatal_of_driver cfg env c disk log m hd
        with ⟨d', lg', hstep⟩
      simp only [exportLoop]
      rw [hstep]
      exact ih d' lg' hn'

theorem loop_fatal_of_driver_false {cfg : ExpCfg} {env : ExportEnv} {c : Container}
    {n : String} {L : Layer}
    (helig : layerEligible cfg n = true) (hL : c.findLayer n = some L)
    (hne : ¬(L.features.length = 0 ∧ cfg.exportEmptyLayers = false))
    (hd : env.driverAvailable = false) :
    ∀ (names : List String) (disk : Disk) (log : List ExpEvent), n ∈ names →
    ∃ d lg, exportLoop cfg env c names disk log = ExportResult.fatal d lg := by
  intro names
  induction names with
  | nil => intro disk log h; simp at h
  | cons m rest ih =>
    intro disk log hn
    cases hstep : exportLayerStep cfg env c disk log m with
    | fatalStep d lg => exact ⟨d, lg, by simp only [exportLoop, hstep]⟩
    | cont d lg =>
      rcases List.mem_cons.mp hn with h | h
      · rw [← h] at hstep
        rw [step_qualified_driver_false helig hL hne hd] at hstep
        simp at hstep
      · rcases ih d lg h with ⟨dd, llgg, hloop⟩
        exact ⟨dd, llgg, by simp only [exportLoop, hstep]; exact hloop⟩

theorem loop_log_qualified {cfg : ExpCfg} {env : ExportEnv} {c : Container}
    (hd : env.driverAvailable = true) :
    ∀ (names : List String) (disk : Disk) (log : List ExpEvent),
    (∀ n ∈ names, layerEligible cfg n = true ∧ ∃ L, c.findLayer n = some L ∧
      ¬(L.features.length = 0 ∧ cfg.exportEmptyLayers = false)) →
    (exportLoop cfg env c names disk log).resLog = log ++ names.map (expEvOf cfg env) := by
  intro names
  induction names with
  | nil => intro disk log _; simp [exportLoop, ExportResult.resLog]
  | cons n rest ih =>
    intro disk log hq
    rcases hq n (List.mem_cons_self _ _) with ⟨helig, L, hL, hne⟩
    rcases @step_qualified_event cfg env c disk log n L helig hL hne hd with ⟨d', hstep⟩
    simp only [exportLoop]
    rw [hstep]
    show (exportLoop cfg env c rest d' (log ++ [expEvOf cfg env n])).resLog = _
    rw [ih d' _ (fun x hx => hq x (List.mem_cons_of_mem _ hx))]
    simp

theorem countP_eq_one_of_unique {α : Type} {p : α → Bool} :
    ∀ (xs : List α) (b : α), xs.Nodup → b ∈ xs → p b = true →
    (∀ x ∈ xs, x ≠ b → p x = false) → xs.countP p = 1 := by
  intro xs
  induction xs with
  | nil => intro b _ hb; simp at hb
  | cons x rest ih =>
    intro b hnod hb hpb hothers
    rcases List.nodup_cons.mp hnod with ⟨hxr, hrest⟩
    by_cases hxb : x = b
    · subst hxb
      rw [List.countP_cons_of_pos p rest hpb]
      have hzero : rest.countP p = 0 := by
        refine List.countP_eq_zero.mpr fun a ha => ?_
        have hab : a ≠ x := fun hh => hxr (hh ▸ ha)
        simp [hothers a (List.mem_cons_of_mem _ ha) hab]
      rw [hzero]
    · have hb' : b ∈ rest := by
        rcases List.mem_cons.mp hb with h | h
        · exact absurd h.symm hxb
        · exact h
      have hpx : ¬ p x = true := by
        simp [hothers x (List.mem_cons_self _ _) hxb]
      rw [List.countP_cons_of_neg p rest hpx]
      exact ih b hrest hb' hpb
        (fun a ha hab => hothers a (List.mem_cons_of_mem _ ha) hab)

/-! ## Claim theorems about the Export Engine -/

/-- C3: layer eligibility is a pure function of the name and the static
configuration (the step's policy decision is independent of the
environment, the container and the state).  Precedence: a name in the
deny-list is skipped unconditionally (even when also allowed or matching
the prefix); otherwise a name in the allow-list or starting with the
literal, case-sensitive `"X"` proceeds past the policy (no policy-skip
event is emitted for it); every other name is skipped as not
included. -/
theorem C3_selection_policy (cfg : ExpCfg) (env : ExportEnv) (c : Container) (disk : Disk)
    (log : List ExpEvent) (n : String) :
    (layerEligible cfg n = true ↔
      n ∉ cfg.excludeLayers ∧ (n ∈ cfg.includeLayers ∨ startsWithX n = true)) ∧
    (n ∈ cfg.excludeLayers →
      exportLayerStep cfg env c disk log n
        = StepRes.cont disk (log ++ [ExpEvent.skippedExcluded n])) ∧
    (n ∉ cfg.excludeLayers → n ∉ cfg.includeLayers → startsWithX n = false →
      exportLayerStep cfg env c disk log n
        = StepRes.cont disk (log ++ [ExpEvent.skippedNotIncluded n])) ∧
    (layerEligible cfg n = true →
      ∀ e ∈ (exportLayerStep cfg env c disk log n).log,
        e ∈ log ∨ policySkipEvent e = false) := by
  refine ⟨layerEligible_iff, fun h => step_excluded h,
    fun h1 h2 h3 => step_not_included h1 h2 h3, fun he e hee => ?_⟩
  rcases @step_eligible_no_policy_skip cfg env c disk log n he
    with ⟨lg', hlog, hall⟩
  rw [hlog] at hee
  rcases List.mem_append.mp hee with h | h
  · exact Or.inl h
  · exact Or.inr (hall e h)

/-- Configuration in which `"A"` is both denied and allowed, `"Xtra"`
matches only the prefix rule, and `"C"` matches nothing. -/
def exC3Cfg : ExpCfg := ⟨"out", ["A"], ["A", "B"], false, "UTF-8"⟩

def exC3Env : ExportEnv := ⟨true, [], []⟩

def exC3Container : Container := ⟨[]⟩

theorem C3_selection_policy_witness :
    ("A" ∈ exC3Cfg.excludeLayers ∧
      exportLayerStep exC3Cfg exC3Env exC3Container [] [] "A"
        = StepRes.cont [] [ExpEvent.skippedExcluded ("A")]) ∧
    layerEligible exC3Cfg ("Xtra") = true ∧
    ("C" ∉ exC3Cfg.excludeLayers ∧ "C" ∉ exC3Cfg.includeLayers ∧
      exportLayerStep exC3Cfg exC3Env exC3Container [] [] "C"
        = StepRes.cont [] [ExpEvent.skippedNotIncluded ("C")]) :=
  ⟨⟨by decide,
      (C3_selection_policy exC3Cfg exC3Env exC3Container [] [] "A").2.1 (by decide)⟩,
    by decide,
    ⟨by decide, by decide,
      (C3_selection_policy exC3Cfg exC3Env exC3Container [] [] "C").2.2.1
        (by decide) (by decide) (by decide)⟩⟩

/-- C4: after a pass with the driver available, every Kart-listed
eligible layer that is present in the container and non-empty (or any
such layer when the empty-layer flag is set) and whose creation does not
fail ends up as an artifact at the path resolved from its name, carrying
exactly the source layer's fields and features and the configured
encoding — independent of whatever was at that path before (a
pre-existing artifact is deleted and fully replaced, never merged). -/
theorem C4_export_completeness (cfg : ExpCfg) (env : ExportEnv) (c : Container)
    (kartNames : List String) (disk : Disk) (n : String) (L : Layer)
    (hdriver : env.driverAvailable = true)
    (hn : n ∈ kartNames)
    (helig : layerEligible cfg n = true)
    (hL : c.findLayer n = some L)
    (hne : L.features.length ≠ 0 ∨ cfg.exportEmptyLayers = true)
    (hds : shpPath cfg.outputDir n ∉ env.dsCreateFails)
    (hlf : n ∉ env.layerCreateFails) :
    ∃ d lg, export_working_dir cfg env true (Except.ok kartNames) (some c) disk
        = ExportResult.done d lg ∧
      diskGet d (shpPath cfg.outputDir n)
        = some (DiskFile.shp n L.fields L.features cfg.encoding) := by
  have hne' : ¬(L.features.length = 0 ∧ cfg.exportEmptyLayers = false) := by
    rintro ⟨hz, hf⟩
    rcases hne with h | h
    · exact h hz
    · rw [h] at hf
      exact Bool.noConfusion hf
  have hnames : ¬ kartNames = [] := by
    rintro rfl
    simp at hn
  have hloop := loop_artifact helig hL hne' hdriver hds hlf kartNames disk [] hn
  rcases @loop_done_of_driver cfg env c hdriver kartNames disk [] with ⟨d, lg, hdone⟩
  refine ⟨d, lg, ?_, ?_⟩
  · simp only [export_working_dir, hnames, if_neg, Bool.true_eq_false, not_false_iff]
    simpa using hdone
  · rw [hdone] at hloop
    exact hloop

def exC4Cfg : ExpCfg := ⟨"out", [], ["pts"], false, "UTF-8"⟩

def exC4Env : ExportEnv := ⟨true, [], []⟩

def exC4Layer : Layer := ⟨"pts", [⟨"a", FieldType.int32⟩], [⟨[("a", some 1)]⟩]⟩

def exC4Container : Container := ⟨[exC4Layer]⟩

theorem C4_export_completeness_witness :
    (exC4Env.driverAvailable = true ∧ "pts" ∈ ["pts"] ∧
      layerEligible exC4Cfg ("pts") = true ∧
      exC4Container.findLayer ("pts") = some exC4Layer ∧
      (exC4Layer.features.length ≠ 0 ∨ exC4Cfg.exportEmptyLayers = true) ∧
      shpPath exC4Cfg.outputDir ("pts") ∉ exC4Env.dsCreateFails ∧
      "pts" ∉ exC4Env.layerCreateFails) ∧
    (∃ d lg, export_working_dir exC4Cfg exC4Env true (Except.ok ["pts"])
        (some exC4Container) [("out/pts.shp", DiskFile.stub)]
        = ExportResult.done d lg ∧
      diskGet d (shpPath exC4Cfg.outputDir ("pts"))
        = some (DiskFile.shp ("pts") exC4Layer.fields exC4Layer.features exC4Cfg.encoding)) :=
  ⟨⟨by decide, by decide, by decide, by decide, by decide, by decide, by decide⟩,
    C4_export_completeness exC4Cfg exC4Env exC4Container ["pts"]
      [("out/pts.shp", DiskFile.stub)] "pts" exC4Layer
      (by decide) (by decide) (by decide) (by decide) (by decide) (by decide) (by decide)⟩

/-- C5: per-layer failure isolation versus global driver fatality.
First part: with the driver available and exactly one of the (eligible,
present, non-empty-or-allowed, pairwise distinct) Kart-listed layers
failing at data-source or layer creation, the pass still finishes,
produces the complete artifact for every other layer, and reports
exactly one creation failure.  Second part: when the interchange-format
driver is unavailable, the pass aborts as a whole as soon as any
eligible non-empty layer reaches creation. -/
theorem C5_export_isolation :
    (∀ (cfg : ExpCfg) (env : ExportEnv) (c : Container) (names : List String)
      (disk : Disk) (b : String),
      env.driverAvailable = true → names.Nodup →
      (∀ n ∈ names, layerEligible cfg n = true ∧ ∃ L, c.findLayer n = some L ∧
        (L.features.length ≠ 0 ∨ cfg.exportEmptyLayers = true)) →
      b ∈ names →
      (shpPath cfg.outputDir b ∈ env.dsCreateFails ∨ b ∈ env.layerCreateFails) →
      (∀ n ∈ names, n ≠ b →
        shpPath cfg.outputDir n ∉ env.dsCreateFails ∧ n ∉ env.layerCreateFails) →
      ∃ d lg, export_working_dir cfg env true (Except.ok names) (some c) disk
          = ExportResult.done d lg ∧
        (∀ n ∈ names, n ≠ b → ∃ L, c.findLayer n = some L ∧
          diskGet d (shpPath cfg.outputDir n)
            = some (DiskFile.shp n L.fields L.features cfg.encoding)) ∧
        lg.countP isCreateFailEvent = 1) ∧
    (∀ (cfg : ExpCfg) (env : ExportEnv) (c : Container) (names : List String)
      (disk : Disk) (n : String) (L : Layer),
      env.driverAvailable = false → n ∈ names → layerEligible cfg n = true →
      c.findLayer n = some L →
      (L.features.length ≠ 0 ∨ cfg.exportEmptyLayers = true) →
      ∃ d lg, export_working_dir cfg env true (Except.ok names) (some c) disk
        = ExportResult.fatal d lg) := by
  have hconv : ∀ (L : Layer) (flag : Bool),
      (L.features.length ≠ 0 ∨ flag = true) →
      ¬(L.features.length = 0 ∧ flag = false) := by
    rintro L flag h ⟨hz, hf⟩
    rcases h with h | h
    · exact h hz
    · rw [h] at hf
      exact Bool.noConfusion hf
  constructor
  · intro cfg env c names disk b hdriver hnod hq hb hbfail hothers
    have hnames : ¬ names = [] := by
      rintro rfl
      simp at hb
    rcases @loop_done_of_driver cfg env c hdriver names disk [] with ⟨d, lg, hdone⟩
    have hq' : ∀ n ∈ names, layerEligible cfg n = true ∧ ∃ L, c.findLayer n = some L ∧
        ¬(L.features.length = 0 ∧ cfg.exportEmptyLayers = false) := by
      intro n hn
      rcases hq n hn with ⟨he, L, hL, hne⟩
      exact ⟨he, L, hL, hconv L _ hne⟩
    refine ⟨d, lg, ?_, ?_, ?_⟩
    · simp only [export_working_dir, hnames, if_neg, Bool.true_eq_false, not_false_iff]
      simpa using hdone
    · intro n hn hnb
      rcases hq' n hn with ⟨helig, L, hL, hne'⟩
      refine ⟨L, hL, ?_⟩
      have hart := loop_artifact helig hL hne' hdriver (hothers n hn hnb).1
        (hothers n hn hnb).2 names disk [] hn
      rw [hdone] at hart
      exact hart
    · have hlog := @loop_log_qualified cfg env c hdriver names disk [] hq'
      rw [hdone] at hlog
      simp only [ExportResult.resLog, List.nil_append] at hlog
      rw [hlog, List.countP_map]
      refine countP_eq_one_of_unique names b hnod hb ?_ ?_
      · show isCreateFailEvent (expEvOf cfg env b) = true
        unfold expEvOf
        rcases hbfail with h | h
        · simp [h, isCreateFailEvent]
        · by_cases h5 : shpPath cfg.outputDir b ∈ env.dsCreateFails <;>
            simp [h5, h, isCreateFailEvent]
      · intro x hx hxb
        show isCreateFailEvent (expEvOf cfg env x) = false
        unfold expEvOf
        simp [(hothers x hx hxb).1, (hothers x hx hxb).2, isCreateFailEvent]
  · intro cfg env c names disk n L hdriver hn helig hL hne
    have hnames : ¬ names = [] := by
      rintro rfl
      simp at hn
    rcases loop_fatal_of_driver_false helig hL (hconv L _ hne) hdriver names disk [] hn
      with ⟨d, lg, hfatal⟩
    refine ⟨d, lg, ?_⟩
    simp only [export_working_dir, hnames, if_neg, Bool.true_eq_false, not_false_iff]
    simpa using hfatal

def exC5Cfg : ExpCfg := ⟨"out", [], ["p", "q", "r"], false, "UTF-8"⟩

def exC5Container : Container :=
  ⟨[⟨"p", [⟨"a", FieldType.int32⟩], [⟨[("a", some 1)]⟩]⟩,
    ⟨"q", [⟨"b", FieldType.int32⟩], [⟨[("b", some 2)]⟩]⟩,
    ⟨"r", [⟨"c", FieldType.int32⟩], [⟨[("c", some 3)]⟩]⟩]⟩

/-- Environment in which data-source creation fails exactly for `q`. -/
def exC5Env : ExportEnv := ⟨true, ["out/q.shp"], []⟩

def exC5EnvNoDriver : ExportEnv := ⟨false, [], []⟩

theorem C5_export_isolation_witness :
    (∃ d lg, export_working_dir exC5Cfg exC5Env true (Except.ok ["p", "q", "r"])
        (some exC5Container) [] = ExportResult.done d lg ∧
      (∀ n ∈ ["p", "q", "r"], n ≠ "q" → ∃ L, exC5Container.findLayer n = some L ∧
        diskGet d (shpPath exC5Cfg.outputDir n)
          = some (DiskFile.shp n L.fields L.features exC5Cfg.encoding)) ∧
      lg.countP isCreateFailEvent = 1) ∧
    (∃ d lg, export_working_dir exC5Cfg exC5EnvNoDriver true (Except.ok ["p", "q", "r"])
      (some exC5Container) [] = ExportResult.fatal d lg) :=
  ⟨C5_export_isolation.1 exC5Cfg exC5Env exC5Container ["p", "q", "r"] [] "q"
      (by decide) (by decide)
      (by decide)
      (by decide) (by decide) (by decide),
    C5_export_isolation.2 exC5Cfg exC5EnvNoDriver exC5Container ["p", "q", "r"] [] "p"
      ⟨"p", [⟨"a", FieldType.int32⟩], [⟨[("a", some 1)]⟩]⟩
      (by decide) (by decide) (by decide) (by decide) (by decide)⟩

/-- C9: the export pass takes its candidate layer names exclusively from
the Kart tracked-layer query: a failing query or an empty result aborts
the pass before any layer is touched (the file system is returned
unchanged), and a name not in the Kart list never has its artifact path
written — a container layer not tracked by Kart is never considered. -/
theorem C9_kart_layer_source (cfg : ExpCfg) (env : ExportEnv) (disk : Disk) :
    (∀ (g : Bool) (oc : Option Container),
      export_working_dir cfg env g (Except.error ()) oc disk
        = ExportResult.fatal disk []) ∧
    (∀ (g : Bool) (oc : Option Container),
      export_working_dir cfg env g (Except.ok []) oc disk
        = ExportResult.fatal disk []) ∧
    (∀ (g : Bool) (kartNames : List String) (oc : Option Container) (m : String),
      m ∉ kartNames →
      diskGet (export_working_dir cfg env g (Except.ok kartNames) oc disk).resDisk
          (shpPath cfg.outputDir m)
        = diskGet disk (shpPath cfg.outputDir m)) := by
  refine ⟨?_, ?_, ?_⟩
  · intro g oc
    cases g <;> rfl
  · intro g oc
    cases g with
    | false => rfl
    | true => cases oc <;> rfl
  · intro g kartNames oc m hm
    cases g with
    | false => rfl
    | true =>
      by_cases hnames : kartNames = []
      · subst hnames
        cases oc <;> rfl
      · cases oc with
        | none =>
          simp only [export_working_dir, hnames, if_neg, Bool.true_eq_false, not_false_iff]
          simp [ExportResult.resDisk, hnames]
        | some c =>
          have := @loop_other_path cfg env c m kartNames disk [] hm
          simp only [export_working_dir, Bool.true_eq_false, if_neg, not_false_iff, hnames]
          simpa using this

def exC9Container : Container :=
  ⟨[⟨"untracked", [⟨"a", FieldType.int32⟩], [⟨[("a", some 1)]⟩]⟩]⟩

theorem C9_kart_layer_source_witness :
    ("untracked" ∉ ["Xother"] ∧
      diskGet (export_working_dir exC3Cfg exC3Env true (Except.ok ["Xother"])
          (some exC9Container) []).resDisk (shpPath exC3Cfg.outputDir ("untracked"))
        = diskGet [] (shpPath exC3Cfg.outputDir ("untracked"))) ∧
    export_working_dir exC3Cfg exC3Env true (Except.error ()) (some exC9Container) []
      = ExportResult.fatal [] [] :=
  ⟨⟨by decide,
      (C9_kart_layer_source exC3Cfg exC3Env []).2.2 true ["Xother"]
        (some exC9Container) "untracked" (by decide)⟩,
    (C9_kart_layer_source exC3Cfg exC3Env []).1 true (some exC9Container)⟩

/-! ## Import Engine (`import_shp_dir`, src/controllers/repo/data_import.py)

`list_shp` joins the directory with every filename carrying the `.shp`
extension.  `import_shp_dir` saves the current working directory, moves
into the Kart repository, runs `kart import --replace-existing <shp>`
once per artifact — a non-zero return code or a raised exception is
recorded for that artifact and the loop continues — and the `finally`
block restores the original working directory on every exit path.

The external tool is modelled as a function from the working directory
and the argv to either an exception (`Except.error`) or a
`(returncode, stderr)` pair. -/

/-- Python's `filename.endswith(".shp")`. -/
def endsWithShp (f : String) : Bool :=
  f.data.reverse.take 4 == ['p', 'h', 's', '.']

def list_shp (shp_dir : String) (files : List String) : List String :=
  (files.filter endsWithShp).map (fun f => shp_dir ++ "/" ++ f)

inductive ImpEvent
  | succeeded (shp : String)
  | failed (shp : String) (stderr : String)
  | errored (shp : String) (msg : String)
deriving DecidableEq, Repr

/-- Observable outcome of one import batch: the per-artifact results,
the external invocations (working directory and argv), and the working
directory the process is left in. -/
structure ImportOut where
  events : List ImpEvent
  calls : List (String × List String)
  finalCwd : String
deriving DecidableEq, Repr

def import_shp_dir (shp_dir kart_repo : String) (files : List String)
    (tool : String → List String → Except String (Int × String)) (cwd0 : String) :
    ImportOut :=
  let r := (list_shp shp_dir files).foldl
    (fun (acc : List ImpEvent × List (String × List String)) shp =>
      let cmd := ["kart", "import", "--replace-existing", shp]
      match tool kart_repo cmd with
      | Except.error e => (acc.1 ++ [ImpEvent.errored shp e], acc.2 ++ [(kart_repo, cmd)])
      | Except.ok (code, stderr) =>
        if code = 0 then (acc.1 ++ [ImpEvent.succeeded shp], acc.2 ++ [(kart_repo, cmd)])
        else (acc.1 ++ [ImpEvent.failed shp stderr], acc.2 ++ [(kart_repo, cmd)]))
    ([], [])
  { events := r.1, calls := r.2, finalCwd := cwd0 }

/-- The event one artifact contributes, determined by the tool's
behaviour on its invocation. -/
def importEventOf (tool : String → List String → Except String (Int × String))
    (kart_repo shp : String) : ImpEvent :=
  match tool kart_repo ["kart", "import", "--replace-existing", shp] with
  | Except.error e => ImpEvent.errored shp e
  | Except.ok (code, stderr) =>
    if code = 0 then ImpEvent.succeeded shp else ImpEvent.failed shp stderr

def isImportSuccess : ImpEvent → Bool
  | ImpEvent.succeeded _ => true
  | _ => false

def isImportFailure : ImpEvent → Bool
  | ImpEvent.succeeded _ => false
  | _ => true

theorem import_fold_shape (kart_repo : String)
    (tool : String → List String → Except String (Int × String)) :
    ∀ (shps : List String) (acc : List ImpEvent × List (String × List String)),
    shps.foldl
      (fun (acc : List ImpEvent × List (String × List String)) shp =>
        let cmd := ["kart", "import", "--replace-existing", shp]
        match tool kart_repo cmd with
        | Except.error e => (acc.1 ++ [ImpEvent.errored shp e], acc.2 ++ [(kart_repo, cmd)])
        | Except.ok (code, stderr) =>
          if code = 0 then (acc.1 ++ [ImpEvent.succeeded shp], acc.2 ++ [(kart_repo, cmd)])
          else (acc.1 ++ [ImpEvent.failed shp stderr], acc.2 ++ [(kart_repo, cmd)])) acc
      = (acc.1 ++ shps.map (importEventOf tool kart_repo),
        acc.2 ++ shps.map (fun shp => (kart_repo, ["kart", "import", "--replace-existing", shp]))) := by
  intro shps
  induction shps with
  | nil => intro acc; simp
  | cons shp rest ih =>
    intro acc
    rw [List.foldl_cons]
    cases htool : tool kart_repo ["kart", "import", "--replace-existing", shp] with
    | error e =>
      simp only [htool]
      rw [ih]
      simp [importEventOf, htool]
    | ok pair =>
      obtain ⟨code, stderr⟩ := pair
      by_cases hcode : code = 0
      · simp only [htool, hcode, if_pos]
        rw [ih]
        simp [importEventOf, htool, hcode]
      · simp only [htool, hcode, if_neg, not_false_iff]
        rw [ih]
        simp [importEventOf, htool, hcode]

theorem countP_eq_length_sub_one_of_unique_false {α : Type} {p : α → Bool} :
    ∀ (xs : List α) (b : α), xs.Nodup → b ∈ xs → p b = false →
    (∀ x ∈ xs, x ≠ b → p x = true) → xs.countP p = xs.length - 1 := by
  intro xs
  induction xs with
  | nil => intro b _ hb; simp at hb
  | cons x rest ih =>
    intro b hnod hb hpb hothers
    rcases List.nodup_cons.mp hnod with ⟨hxr, hrest⟩
    by_cases hxb : x = b
    · subst hxb
      have hpx : ¬ p x = true := by simp [hpb]
      rw [List.countP_cons_of_neg p rest hpx]
      have hall : rest.countP p = rest.length := by
        refine List.countP_eq_length.mpr fun a ha => ?_
        exact hothers a (List.mem_cons_of_mem _ ha) (fun hh => hxr (hh ▸ ha))
      simp [hall]
    · have hb' : b ∈ rest := by
        rcases List.mem_cons.mp hb with h | h
        · exact absurd h.symm hxb
        · exact h
      have hpx : p x = true := hothers x (List.mem_cons_self _ _) hxb
      rw [List.countP_cons_of_pos p rest hpx]
      rw [ih b hrest hb' hpb
        (fun a ha hab => hothers a (List.mem_cons_of_mem _ ha) hab)]
      have hlen : 1 ≤ rest.length := by
        cases rest with
        | nil => simp at hb'
        | cons y ys => simp
      simp only [List.length_cons]
      omega

/-- C6: the import batch invokes the external tool exactly once per
`.shp` artifact (in the repository directory, with the
`--replace-existing` policy), records one outcome per artifact
regardless of tool failures or exceptions, restores the working
directory on every exit path, and when exactly one of K artifacts makes
the tool fail — by non-zero status or by raising — the batch reports
K−1 successes and 1 failure. -/
theorem C6_import_isolation (shp_dir kart_repo : String) (files : List String)
    (tool : String → List String → Except String (Int × String)) (cwd0 : String) :
    (import_shp_dir shp_dir kart_repo files tool cwd0).calls
      = (list_shp shp_dir files).map
          (fun shp => (kart_repo, ["kart", "import", "--replace-existing", shp])) ∧
    (import_shp_dir shp_dir kart_repo files tool cwd0).finalCwd = cwd0 ∧
    (import_shp_dir shp_dir kart_repo files tool cwd0).events
      = (list_shp shp_dir files).map (importEventOf tool kart_repo) ∧
    (∀ b, (list_shp shp_dir files).Nodup → b ∈ list_shp shp_dir files →
      isImportFailure (importEventOf tool kart_repo b) = true →
      (∀ x ∈ list_shp shp_dir files, x ≠ b →
        importEventOf tool kart_repo x = ImpEvent.succeeded x) →
      (import_shp_dir shp_dir kart_repo files tool cwd0).events.countP isImportSuccess
          = (list_shp shp_dir files).length - 1 ∧
        (import_shp_dir shp_dir kart_repo files tool cwd0).events.countP isImportFailure
          = 1) := by
  have hshape := import_fold_shape kart_repo tool (list_shp shp_dir files) ([], [])
  have hev : (import_shp_dir shp_dir kart_repo files tool cwd0).events
      = (list_shp shp_dir files).map (importEventOf tool kart_repo) := by
    show ((list_shp shp_dir files).foldl _ ([], [])).1 = _
    rw [hshape]
    simp
  have hcalls : (import_shp_dir shp_dir kart_repo files tool cwd0).calls
      = (list_shp shp_dir files).map
          (fun shp => (kart_repo, ["kart", "import", "--replace-existing", shp])) := by
    show ((list_shp shp_dir files).foldl _ ([], [])).2 = _
    rw [hshape]
    simp
  refine ⟨hcalls, rfl, hev, ?_⟩
  intro b hnod hb hfail hothers
  rw [hev, List.countP_map, List.countP_map]
  constructor
  · have hlen : (list_shp shp_dir files).length
        = ((list_shp shp_dir files).map (importEventOf tool kart_repo)).length := by simp
    refine (countP_eq_length_sub_one_of_unique_false (list_shp shp_dir files) b hnod hb ?_ ?_)
    · show isImportSuccess (importEventOf tool kart_repo b) = false
      cases hcase : importEventOf tool kart_repo b with
      | succeeded shp =>
        rw [hcase] at hfail
        simp [isImportFailure] at hfail
      | failed shp stderr => rfl
      | errored shp msg => rfl
    · intro x hx hxb
      show isImportSuccess (importEventOf tool kart_repo x) = true
      rw [hothers x hx hxb]
      rfl
  · refine countP_eq_one_of_unique (list_shp shp_dir files) b hnod hb ?_ ?_
    · exact hfail
    · intro x hx hxb
      show isImportFailure (importEventOf tool kart_repo x) = false
      rw [hothers x hx hxb]
      rfl

def exC6Files : List String := ["a.shp", "readme.txt", "c.shp"]

/-- Tool that fails (non-zero status) exactly on `shps/c.shp`. -/
def exC6Tool : String → List String → Except String (Int × String) :=
  fun _ cmd =>
    if cmd = ["kart", "import", "--replace-existing", "shps/c.shp"] then
      Except.ok (1, "import error")
    else Except.ok (0, "")

theorem C6_import_isolation_witness :
    ((list_shp ("shps") exC6Files).Nodup ∧
      "shps/c.shp" ∈ list_shp ("shps") exC6Files ∧
      isImportFailure (importEventOf exC6Tool ("repo") "shps/c.shp") = true ∧
      (∀ x ∈ list_shp ("shps") exC6Files, x ≠ "shps/c.shp" →
        importEventOf exC6Tool ("repo") x = ImpEvent.succeeded x)) ∧
    ((import_shp_dir ("shps") "repo" exC6Files exC6Tool ("/orig")).finalCwd = "/orig") ∧
    ((import_shp_dir ("shps") "repo" exC6Files exC6Tool ("/orig")).events.countP isImportSuccess
        = (list_shp ("shps") exC6Files).length - 1 ∧
      (import_shp_dir ("shps") "repo" exC6Files exC6Tool ("/orig")).events.countP isImportFailure
        = 1) :=
  ⟨⟨by decide, by decide, by decide, by decide⟩,
    (C6_import_isolation ("shps") "repo" exC6Files exC6Tool ("/orig")).2.1,
    (C6_import_isolation ("shps") "repo" exC6Files exC6Tool ("/orig")).2.2.2 ("shps/c.shp")
      (by decide) (by decide) (by decide) (by decide)⟩

/-! ## Inspection Utilities (src/controllers/data/inspect_data.py)

`get_cpg_encoding` reads and strips the sidecar content, returning the
sentinel on any read failure (absent file included); `shp_overview`
walks every `.shp` file of a directory, wrapping each file's processing
in a `try/except`, so one bad artifact yields a report and never stops
the rest.  Opening/processing is abstracted as an oracle from the file
path to either an exception, a failed open (`none`), or the artifact's
data; the sidecar content as an oracle from the sidecar path to its
optional content.  Both functions are read-only by construction: they
consume the oracles and produce reports, mutating nothing. -/

/-- Python's `s.strip()`: remove leading and trailing whitespace. -/
def stripStr (s : String) : String :=
  String.mk (((s.data.dropWhile Char.isWhitespace).reverse.dropWhile
    Char.isWhitespace).reverse)

/-- `get_cpg_encoding`: the sidecar's stripped content, or the sentinel
when the sidecar is absent or unreadable (the `except` branch). -/
def get_cpg_encoding (content : Option String) : String :=
  match content with
  | some s => stripStr s
  | none => "Not specified"

structure ShpData where
  epsg : Option String
  featureCount : Nat
  attrs : List (String × String)
deriving DecidableEq, Repr

inductive InspectReport
  | openFailed (filename : String)
  | procError (filename : String) (msg : String)
  | info (filename : String) (epsg : String) (encoding : String) (featureCount : Nat)
      (attrs : List (String × String))
deriving DecidableEq, Repr

/-- `os.path.splitext(filepath)[0] + ".cpg"` for a path ending in
`.shp`: drop the four extension characters, append `.cpg`. -/
def cpgPath (filepath : String) : String :=
  String.mk (filepath.data.take (filepath.data.length - 4)) ++ ".cpg"

/-- The report produced for one `.shp` file: the `except` branch
(`procError`), the failed open, or the overview line with EPSG code
(`"Unknown"` when undetermined), sidecar encoding, feature count and
attribute list. -/
def inspectReportOf (data_dir : String) (openShp : String → Except String (Option ShpData))
    (cpg : String → Option String) (filename : String) : InspectReport :=
  let filepath := data_dir ++ "/" ++ filename
  match openShp filepath with
  | Except.error e => InspectReport.procError filename e
  | Except.ok none => InspectReport.openFailed filename
  | Except.ok (some d) =>
    InspectReport.info filename (d.epsg.getD ("Unknown"))
      (get_cpg_encoding (cpg (cpgPath filepath))) d.featureCount d.attrs

def shp_overview (data_dir : String) (files : List String)
    (openShp : String → Except String (Option ShpData))
    (cpg : String → Option String) : List InspectReport :=
  (files.filter endsWithShp).map (inspectReportOf data_dir openShp cpg)

/-- C10: inspection is read-only and failure-isolated: whatever the
open/processing oracle does, the overview reports exactly one line per
`.shp` file (a failure on one artifact never suppresses the reports of
the others); an absent or unreadable sidecar yields the sentinel
`"Not specified"` encoding rather than an error, both at the
`get_cpg_encoding` level and in the overview line of a readable
artifact. -/
theorem C10_inspect_isolation (data_dir : String) (files : List String)
    (openShp : String → Except String (Option ShpData)) (cpg : String → Option String) :
    get_cpg_encoding none = "Not specified" ∧
    (shp_overview data_dir files openShp cpg).length = (files.filter endsWithShp).length ∧
    (∀ f ∈ files.filter endsWithShp,
      (∀ e, openShp (data_dir ++ "/" ++ f) = Except.error e →
        InspectReport.procError f e ∈ shp_overview data_dir files openShp cpg) ∧
      (openShp (data_dir ++ "/" ++ f) = Except.ok none →
        InspectReport.openFailed f ∈ shp_overview data_dir files openShp cpg) ∧
      (∀ d, openShp (data_dir ++ "/" ++ f) = Except.ok (some d) →
        cpg (cpgPath (data_dir ++ "/" ++ f)) = none →
        InspectReport.info f (d.epsg.getD ("Unknown")) ("Not specified")
            d.featureCount d.attrs
          ∈ shp_overview data_dir files openShp cpg)) := by
  refine ⟨rfl, by simp [shp_overview], ?_⟩
  intro f hf
  refine ⟨?_, ?_, ?_⟩
  · intro e he
    refine List.mem_map.mpr ⟨f, hf, ?_⟩
    simp [inspectReportOf, he]
  · intro he
    refine List.mem_map.mpr ⟨f, hf, ?_⟩
    simp [inspectReportOf, he]
  · intro d hd hcpg
    refine List.mem_map.mpr ⟨f, hf, ?_⟩
    simp [inspectReportOf, hd, hcpg, get_cpg_encoding]

def exC10Files : List String := ["bad.shp", "good.shp", "notes.txt"]

/-- Oracle: opening `d/bad.shp` fails; `d/good.shp` opens with two
features; nothing else is asked for. -/
def exC10Open : String → Except String (Option ShpData) :=
  fun p =>
    if p = "d/bad.shp" then Except.ok none
    else Except.ok (some ⟨some ("5514"), 2, [("a", "Integer")]⟩)

/-- Oracle: no sidecar file exists. -/
def exC10Cpg : String → Option String := fun _ => none

theorem C10_inspect_isolation_witness :
    ("bad.shp" ∈ exC10Files.filter endsWithShp ∧
      "good.shp" ∈ exC10Files.filter endsWithShp ∧
      exC10Open ("d/bad.shp") = Except.ok none ∧
      exC10Open ("d/good.shp") = Except.ok (some ⟨some ("5514"), 2, [("a", "Integer")]⟩) ∧
      exC10Cpg (cpgPath ("d/good.shp")) = none) ∧
    (InspectReport.openFailed ("bad.shp")
        ∈ shp_overview ("d") exC10Files exC10Open exC10Cpg ∧
      InspectReport.info ("good.shp")
          ((ShpData.mk (some ("5514")) 2 [("a", "Integer")]).epsg.getD ("Unknown"))
          ("Not specified") 2 [("a", "Integer")]
        ∈ shp_overview ("d") exC10Files exC10Open exC10Cpg) :=
  ⟨⟨by decide, by decide, by rfl, by rfl, by rfl⟩,
    ((C10_inspect_isolation ("d") exC10Files exC10Open exC10Cpg).2.2 ("bad.shp")
        (by decide)).2.1 (by rfl),
    ((C10_inspect_isolation ("d") exC10Files exC10Open exC10Cpg).2.2 ("good.shp")
        (by decide)).2.2 ⟨some ("5514"), 2, [("a", "Integer")]⟩ (by rfl) (by rfl)⟩

end JsUp
